import Mathlib

set_option maxRecDepth 4000
set_option maxHeartbeats 1000000

/-!
Verification of the entity-batching and schema-rewrite core of the
`eazure` repository (`src/eazure/tables.py`) against its design
specification.

The embedding models:
* `Val` / `Rec` — Python scalar values and `dict`-based entities
  (ordered association lists with Python assignment/erase semantics);
* `Store` / `St` / `Res` — the abstract tabular entity store of spec §6,
  a store state together with the trace of store-level events, and
  explicit error-or-ok results carrying the state at the point of
  failure;
* direct translations of the functions of `tables.py`
  (`delete_all_rows_batch`, `write_df_to_azure_table`,
  `write_df_to_azure_table_batch`, `add_keys_to_df`, `rename_table`,
  `copy_column`, `delete_column`) plus a small model of the pandas
  `DataFrame` operations they use.
-/

namespace Eazure

/-- Scalar cell values of entities: strings, integers, and the pandas
missing-value marker (`NaN`). -/
inductive Val where
  | str : String → Val
  | int : Int → Val
  | nan : Val
deriving DecidableEq, Repr

/-- An entity / Python `dict`: an ordered association list from column
name to scalar value. -/
abbrev Rec := List (String × Val)

/-- First-binding lookup in an association list (Python `d[k]` /
`d.get(k)`). -/
def alookup (k : String) : Rec → Option Val
  | [] => none
  | kv :: rest => if kv.1 = k then some kv.2 else alookup k rest

/-- Python `k in d`. -/
def dictHas (r : Rec) (k : String) : Bool := (alookup k r).isSome

/-- Python `d[k] = v`: overwrite in place if the key exists, else append
the new binding at the end. -/
def dictSet (r : Rec) (k : String) (v : Val) : Rec :=
  if dictHas r k then r.map (fun kv => if kv.1 = k then (kv.1, v) else kv)
  else r ++ [(k, v)]

/-- Python dict comprehension dropping one key (used by
`delete_column`). -/
def dictErase (k : String) : Rec → Rec
  | [] => []
  | kv :: rest => if kv.1 = k then dictErase k rest else kv :: dictErase k rest

/-- The `(PartitionKey, RowKey)` identity of an entity, when both keys
are present. -/
def entKey? (r : Rec) : Option (Val × Val) :=
  match alookup "PartitionKey" r, alookup "RowKey" r with
  | some p, some q => some (p, q)
  | _, _ => none

/-- A batch operation (spec §6 `commitBatch`): `insert entity` or
`delete (partitionKey, rowKey)`. -/
inductive Op where
  | ins : Rec → Op
  | del : Val → Val → Op
deriving DecidableEq, Repr

/-- The partition key targeted by a batch operation. -/
def Op.pk : Op → Option Val
  | .ins e => alookup "PartitionKey" e
  | .del p _ => some p

/-- Whether every operation of a batch targets the same partition key
(spec §6: "single partition key" per batch). -/
def batchSamePK : List Op → Bool
  | [] => true
  | o :: rest => rest.all (fun o2 => decide (o2.pk = o.pk))

/-- Errors of the store layer and of the Python-level code
(`KeyError`, pandas `drop` on a missing column, Azure service errors). -/
inductive Err where
  | keyError : String → Err
  | tableNotFound : String → Err
  | tableAlready : String → Err
  | entityNotFound : Err
  | entityExists : Err
  | batchTooLarge : Err
  | mixedPartitionKeys : Err
  | missingKeys : Err
deriving DecidableEq, Repr

/-- Observable store-level events, used to state which commits, inserts
and updates a run issues and in which order. -/
inductive Ev where
  | commit : String → List Op → Ev
  | insertOne : String → Rec → Ev
  | updateOne : String → Rec → Ev
  | scan : String → Ev
  | createTable : String → Ev
  | deleteTable : String → Ev
deriving DecidableEq, Repr

/-- The tabular entity store: named tables, each an ordered list of
entities (scan order). -/
abbrev Store := List (String × List Rec)

/-- Contents of a table, if it exists. -/
def getTable : Store → String → Option (List Rec)
  | [], _ => none
  | p :: rest, tn => if p.1 = tn then some p.2 else getTable rest tn

/-- Replace the contents of a table (appending a fresh table when the
name is absent). -/
def setTable : Store → String → List Rec → Store
  | [], tn, t => [(tn, t)]
  | p :: rest, tn, t => if p.1 = tn then (tn, t) :: rest else p :: setTable rest tn t

/-- Remove a table from the store. -/
def dropTable : Store → String → Store
  | [], _ => []
  | p :: rest, tn => if p.1 = tn then dropTable rest tn else p :: dropTable rest tn

/-- A program state: the store plus the trace of store-level events
issued so far. -/
structure St where
  store : Store
  events : List Ev
deriving DecidableEq, Repr

/-- Result of running a store-interacting computation: a value or an
error, in both cases together with the state reached (errors do not
roll anything back, spec §7). -/
inductive Res (α : Type) where
  | ok : α → St → Res α
  | err : Err → St → Res α
deriving DecidableEq, Repr

variable {α β : Type}

/-- Sequencing of store computations: an error halts. -/
def Res.bind : Res α → (α → St → Res β) → Res β
  | .ok a s, f => f a s
  | .err e s, _ => .err e s

/-! ### The entity-store primitives

Models of the external Azure table SDK calls, following the abstract
entity-store contract of spec §6. -/

/-- `table_service.exists`. -/
def svcExists (tn : String) (s : St) : Res Bool :=
  .ok ((getTable s.store tn).isSome) s

/-- `table_service.create_table`: fails if the table already exists. -/
def svcCreateTable (tn : String) (s : St) : Res Unit :=
  match getTable s.store tn with
  | some _ => .err (.tableAlready tn) s
  | none => .ok () ⟨s.store ++ [(tn, [])], s.events ++ [.createTable tn]⟩

/-- `table_service.delete_table`: fails if the table is absent. -/
def svcDeleteTable (tn : String) (s : St) : Res Unit :=
  match getTable s.store tn with
  | none => .err (.tableNotFound tn) s
  | some _ => .ok () ⟨dropTable s.store tn, s.events ++ [.deleteTable tn]⟩

/-- `table_service.query_entities` (empty filter): the full scan of a
table, in stored order. -/
def svcQueryEntities (tn : String) (s : St) : Res (List Rec) :=
  match getTable s.store tn with
  | none => .err (.tableNotFound tn) s
  | some t => .ok t ⟨s.store, s.events ++ [.scan tn]⟩

/-- Insert an entity into a table snapshot: the entity must carry both
keys and its `(PartitionKey, RowKey)` must be fresh. -/
def insOne (t : List Rec) (e : Rec) : Except Err (List Rec) :=
  match entKey? e with
  | none => .error .missingKeys
  | some k =>
    if t.any (fun r => decide (entKey? r = some k)) then .error .entityExists
    else .ok (t ++ [e])

/-- Remove the first entity with the given key pair. -/
def eraseEnt : List Rec → Val → Val → List Rec
  | [], _, _ => []
  | r :: rest, p, q =>
    if entKey? r = some (p, q) then rest else r :: eraseEnt rest p q

/-- Delete the entity with the given key pair: fails if absent. -/
def delOne (t : List Rec) (p q : Val) : Except Err (List Rec) :=
  if t.any (fun r => decide (entKey? r = some (p, q))) then .ok (eraseEnt t p q)
  else .error .entityNotFound

/-- Apply one batch operation to a table snapshot. -/
def applyOp (t : List Rec) : Op → Except Err (List Rec)
  | .ins e => insOne t e
  | .del p q => delOne t p q

/-- Apply a list of batch operations in order, halting on failure. -/
def applyOps (t : List Rec) : List Op → Except Err (List Rec)
  | [] => .ok t
  | o :: rest =>
    match applyOp t o with
    | .error e => .error e
    | .ok t2 => applyOps t2 rest

/-- `table_service.commit_batch`. Modelled from the spec (§6): at most
100 operations, a single partition key, atomic all-or-nothing commit. -/
def svcCommitBatch (tn : String) (ops : List Op) (s : St) : Res Unit :=
  if ops.length > 100 then .err .batchTooLarge s
  else if batchSamePK ops = false then .err .mixedPartitionKeys s
  else
    match getTable s.store tn with
    | none => .err (.tableNotFound tn) s
    | some t =>
      match applyOps t ops with
      | .error e => .err e s
      | .ok t2 => .ok () ⟨setTable s.store tn t2, s.events ++ [.commit tn ops]⟩

/-- `table_service.insert_entity`. -/
def svcInsertEntity (tn : String) (e : Rec) (s : St) : Res Unit :=
  match getTable s.store tn with
  | none => .err (.tableNotFound tn) s
  | some t =>
    match insOne t e with
    | .error er => .err er s
    | .ok t2 => .ok () ⟨setTable s.store tn t2, s.events ++ [.insertOne tn e]⟩

/-- `table_service.update_entity`: full replacement of the entity with
the same `(PartitionKey, RowKey)`. -/
def svcUpdateEntity (tn : String) (e : Rec) (s : St) : Res Unit :=
  match getTable s.store tn with
  | none => .err (.tableNotFound tn) s
  | some t =>
    match entKey? e with
    | none => .err .missingKeys s
    | some k =>
      if t.any (fun r => decide (entKey? r = some k)) then
        .ok () ⟨setTable s.store tn (t.map (fun r => if entKey? r = some k then e else r)),
                s.events ++ [.updateOne tn e]⟩
      else .err .entityNotFound s

/-! ### The pandas `DataFrame` model

Only the operations `tables.py` uses: construction from a list of
records (column set = union of keys, missing cells are `NaN`),
`to_dict("records")`, column assignment, and `drop(columns=[...])`. -/

/-- Membership test on a list of column names. -/
def hasStr : List String → String → Bool
  | [], _ => false
  | x :: rest, c => if x = c then true else hasStr rest c

/-- Remove the (first occurrence of a) column label. -/
def eraseStr : List String → String → List String
  | [], _ => []
  | x :: rest, c => if x = c then rest else x :: eraseStr rest c

/-- A pandas `DataFrame`: an ordered list of column labels plus the
underlying row records (a row may lack a column; reading it yields
`NaN`). -/
structure DF where
  cols : List String
  rows : List Rec
deriving DecidableEq, Repr

/-- `df.to_dict("records")`: one record per row, with exactly the
dataframe's columns, `NaN` for missing cells.  The dtype unification
pandas applies to a column that has missing cells (its integers
resurface as floats) is not modelled here, so exact-contents
statements about round-tripped entities are made only for sources
without missing cells. -/
def DF.toRecords (df : DF) : List Rec :=
  df.rows.map (fun r => df.cols.map (fun c => (c, (alookup c r).getD Val.nan)))

/-- Union of the key sets of a list of records, in order of first
appearance (`pd.DataFrame(list_of_dicts)` column inference). -/
def unionKeys (rs : List Rec) : List String :=
  rs.foldl (fun acc r => r.foldl
    (fun acc2 kv => if hasStr acc2 kv.1 then acc2 else acc2 ++ [kv.1]) acc) []

/-- `pd.DataFrame(records)`. -/
def dfOfRecords (rs : List Rec) : DF := ⟨unionKeys rs, rs⟩

/-- `df.drop(columns=[c])`: `KeyError` when the label is absent. -/
def DF.dropCol (df : DF) (c : String) : Except Err DF :=
  if hasStr df.cols c then .ok ⟨eraseStr df.cols c, df.rows⟩
  else .error (.keyError c)

/-- Column assignment `df[c] = values` (one value per row): keeps the
label's position when it exists, else appends the label. -/
def DF.setCol (df : DF) (c : String) (vs : List Val) : DF :=
  ⟨if hasStr df.cols c then df.cols else df.cols ++ [c],
   List.zipWith (fun r v => dictSet r c v) df.rows vs⟩

/-- Read a column as a list of values (`NaN` for missing cells). -/
def DF.colVals (df : DF) (c : String) : List Val :=
  df.rows.map (fun r => (alookup c r).getD Val.nan)

/-! ### Decimal rendering and zero-padding (Python `str(i)`, `zfill`) -/

/-- Fuel-driven decimal rendering of a natural number, most significant
digit first (the recursion of Python `str(i)` for a nonnegative
integer). -/
def pyStrNatAux : Nat → Nat → List Char
  | 0, _ => []
  | fuel + 1, n =>
    if n < 10 then [Nat.digitChar n]
    else pyStrNatAux fuel (n / 10) ++ [Nat.digitChar (n % 10)]

/-- Python `str(i)` for a natural number, as a list of characters. -/
def pyStrNat (n : Nat) : List Char := pyStrNatAux (n + 1) n

/-- Python `s.zfill(w)` for a digit string: left-pad with `'0'` to
width `w`. -/
def zfillChars (w : Nat) (cs : List Char) : List Char :=
  List.replicate (w - cs.length) '0' ++ cs

/-- Element-wise pandas string-series addition (`+` on string columns);
any non-string operand poisons the result (`NaN`). -/
def valStrAdd : Val → Val → Val
  | .str a, .str b => .str (a ++ b)
  | _, _ => .nan

/-! ### Translations of `src/eazure/tables.py` -/

/-- `table_exists` (tables.py line 8). -/
def table_exists (tn : String) (s : St) : Res Bool := svcExists tn s

/-- `create_table` (tables.py line 22): create only when absent; when
present, only print a message. -/
def create_table (tn : String) (s : St) : Res Unit :=
  Res.bind (table_exists tn s) fun b s1 =>
    if b then .ok () s1 else svcCreateTable tn s1

/-- `delete_table_if_exists` (tables.py line 37). -/
def delete_table_if_exists (tn : String) (s : St) : Res Unit :=
  Res.bind (svcExists tn s) fun b s1 =>
    if b then svcDeleteTable tn s1 else .ok () s1

/-- `query_entities` with `return_df=True` (tables.py line 69). -/
def query_entities_df (tn : String) (s : St) : Res DF :=
  Res.bind (svcQueryEntities tn s) fun es s1 => .ok (dfOfRecords es) s1

/-- The loop of `delete_all_rows_batch` (tables.py lines 135-150):
per-entity flush-on-key-change-or-100 grouping, then a final commit of
any non-empty batch. -/
def goDelete (tn : String) : List Rec → Option Val → Nat → List Op → St → Res Unit
  | [], _, count, batch, s =>
    if count > 0 then svcCommitBatch tn batch s else .ok () s
  | e :: rest, curPK, count, batch, s =>
    match alookup "PartitionKey" e with
    | none => .err (.keyError "PartitionKey") s
    | some epk =>
      if curPK ≠ some epk ∨ count = 100 then
        Res.bind (if curPK.isSome then svcCommitBatch tn batch s else .ok () s)
          fun _ s2 =>
            match alookup "RowKey" e with
            | none => .err (.keyError "RowKey") s2
            | some erk => goDelete tn rest (some epk) 1 [Op.del epk erk] s2
      else
        match alookup "RowKey" e with
        | none => .err (.keyError "RowKey") s
        | some erk => goDelete tn rest curPK (count + 1) (batch ++ [Op.del epk erk]) s

/-- `delete_all_rows_batch` (tables.py line 114). -/
def delete_all_rows_batch (tn : String) (s : St) : Res Unit :=
  Res.bind (svcQueryEntities tn s) fun entities s1 =>
    goDelete tn entities none 0 [] s1

/-- The entity built from a row by the write functions: a fresh
`Entity` whose `PartitionKey`/`RowKey` attributes are set first, then
every item of the row is set on it (tables.py lines 180-184 and
217-221). -/
def buildEnt (row : Rec) (p q : Val) : Rec :=
  row.foldl (fun e kv => dictSet e kv.1 kv.2) [("PartitionKey", p), ("RowKey", q)]

/-- Entity construction including the `row["PartitionKey"]` /
`row["RowKey"]` accesses, which raise `KeyError` when absent. -/
def mkEntity (row : Rec) : Except Err Rec :=
  match alookup "PartitionKey" row with
  | none => .error (.keyError "PartitionKey")
  | some p =>
    match alookup "RowKey" row with
    | none => .error (.keyError "RowKey")
    | some q => .ok (buildEnt row p q)

/-- The `if not table_exists: create_table` preamble shared by both
write functions (tables.py lines 171-173 and 206-208). -/
def ensureTable (tn : String) (s : St) : Res Unit :=
  Res.bind (table_exists tn s) fun b s1 =>
    if b then .ok () s1 else create_table tn s1

/-- The insertion loop of `write_df_to_azure_table`
(tables.py lines 179-185): one `insert_entity` per row. -/
def goWriteOne (tn : String) : List Rec → St → Res Unit
  | [], s => .ok () s
  | row :: rest, s =>
    match mkEntity row with
    | .error e => .err e s
    | .ok ent => Res.bind (svcInsertEntity tn ent s) fun _ s2 => goWriteOne tn rest s2

/-- `write_df_to_azure_table` (tables.py line 153): the one-by-one
writer. -/
def write_df_to_azure_table (tn : String) (df : DF) (truncate : Bool) (s : St) :
    Res Unit :=
  Res.bind (ensureTable tn s) fun _ s1 =>
  Res.bind (if truncate then delete_all_rows_batch tn s1 else .ok () s1) fun _ s2 =>
  goWriteOne tn df.toRecords s2

/-- The batching loop of `write_df_to_azure_table_batch`
(tables.py lines 216-231): append each entity to the current batch and
commit exactly when the count reaches 100; commit the final non-empty
batch. The loop keys on nothing but the count. -/
def goWrite (tn : String) : List Rec → List Op → Nat → St → Res Unit
  | [], batch, count, s =>
    if count > 0 then svcCommitBatch tn batch s else .ok () s
  | row :: rest, batch, count, s =>
    match mkEntity row with
    | .error e => .err e s
    | .ok ent =>
      if count + 1 = 100 then
        Res.bind (svcCommitBatch tn (batch ++ [Op.ins ent]) s) fun _ s2 =>
          goWrite tn rest [] 0 s2
      else goWrite tn rest (batch ++ [Op.ins ent]) (count + 1) s

/-- `write_df_to_azure_table_batch` (tables.py line 188): the batched
writer. -/
def write_df_to_azure_table_batch (tn : String) (df : DF) (truncate : Bool) (s : St) :
    Res Unit :=
  Res.bind (ensureTable tn s) fun _ s1 =>
  Res.bind (if truncate then delete_all_rows_batch tn s1 else .ok () s1) fun _ s2 =>
  goWrite tn df.toRecords [] 0 s2

/-- `add_keys_to_df` (tables.py line 234): set `PartitionKey` to the
given value on every row, set `RowKey` to the zero-padded row index
(width = digit count of the row count), then prepend
`PartitionKey + "-"`. -/
def add_keys_to_df (df : DF) (partition_key : String) : DF :=
  let max_digits := (pyStrNat df.rows.length).length
  let df1 := df.setCol "PartitionKey" (df.rows.map fun _ => Val.str partition_key)
  let df2 := df1.setCol "RowKey"
    ((List.range df1.rows.length).map fun i =>
      Val.str ⟨zfillChars max_digits (pyStrNat i)⟩)
  df2.setCol "RowKey"
    (List.zipWith (fun pv rv => valStrAdd (valStrAdd pv (Val.str "-")) rv)
      (df2.colVals "PartitionKey") (df2.colVals "RowKey"))

/-- `rename_table` (tables.py line 259): delete the destination if it
exists, create it, scan the source, drop the store-managed `Timestamp`
column, write everything into the destination via the one-by-one
writer with `truncate=True`, then delete the source. -/
def rename_table (old_name new_name : String) (s : St) : Res Unit :=
  Res.bind (delete_table_if_exists new_name s) fun _ s1 =>
  Res.bind (create_table new_name s1) fun _ s2 =>
  Res.bind (query_entities_df old_name s2) fun entities s3 =>
  match entities.dropCol "Timestamp" with
  | .error e => .err e s3
  | .ok entities2 =>
    Res.bind (write_df_to_azure_table new_name entities2 true s3) fun _ s4 =>
    delete_table_if_exists old_name s4

/-- The loop of `copy_column` (tables.py lines 306-314): for each
scanned entity that has the source column, update it with the new
column set to the source column's value. -/
def goCopyColumn (tn old_column new_column : String) : List Rec → St → Res Unit
  | [], s => .ok () s
  | e :: rest, s =>
    if dictHas e old_column then
      Res.bind
        (svcUpdateEntity tn
          (dictSet e new_column ((alookup old_column e).getD Val.nan)) s)
        fun _ s2 => goCopyColumn tn old_column new_column rest s2
    else goCopyColumn tn old_column new_column rest s

/-- `copy_column` (tables.py line 289). -/
def copy_column (tn old_column new_column : String) (s : St) : Res Unit :=
  Res.bind (svcQueryEntities tn s) fun es s1 =>
    goCopyColumn tn old_column new_column es s1

/-- The loop of `delete_column` (tables.py lines 333-340): for each
scanned entity that has the column, update it with the key removed. -/
def goDeleteColumn (tn column_name : String) : List Rec → St → Res Unit
  | [], s => .ok () s
  | e :: rest, s =>
    if dictHas e column_name then
      Res.bind (svcUpdateEntity tn (dictErase column_name e) s) fun _ s2 =>
        goDeleteColumn tn column_name rest s2
    else goDeleteColumn tn column_name rest s

/-- `delete_column` (tables.py line 317). -/
def delete_column (tn column_name : String) (s : St) : Res Unit :=
  Res.bind (svcQueryEntities tn s) fun es s1 =>
    goDeleteColumn tn column_name es s1

/-! ### Derived notions used by the statements -/

/-- The state a run ends in, whether it succeeded or failed. -/
def Res.stateOf : Res α → St
  | .ok _ s => s
  | .err _ s => s

/-- Whether a run succeeded. -/
def Res.isOk : Res α → Bool
  | .ok _ _ => true
  | .err _ _ => false

/-- Both reserved keys are present on an entity (spec §3 validity). -/
def entOK (r : Rec) : Prop :=
  (alookup "PartitionKey" r).isSome ∧ (alookup "RowKey" r).isSome

instance (r : Rec) : Decidable (entOK r) := by
  unfold entOK
  exact inferInstance

/-- The delete operation the delete-batching loop records for a scanned
entity. -/
def delOpOf (r : Rec) : Op :=
  .del ((alookup "PartitionKey" r).getD .nan) ((alookup "RowKey" r).getD .nan)

/-- The entity the write loops build from a row (total form). -/
def builtEnt (row : Rec) : Rec :=
  buildEnt row ((alookup "PartitionKey" row).getD .nan)
    ((alookup "RowKey" row).getD .nan)

/-- The insert operation the write-batching loop records for a row. -/
def insOpOf (row : Rec) : Op := .ins (builtEnt row)

/-- Whether a batch operation is a delete. -/
def Op.isDel : Op → Bool
  | .ins _ => false
  | .del _ _ => true

/-- Whether an event is a single-entity insert. -/
def Ev.isInsert : Ev → Bool
  | .insertOne _ _ => true
  | _ => false

/-- Pure effect of `delete_table_if_exists` on the store. -/
def storeDropIfExists (S : Store) (tn : String) : Store :=
  if (getTable S tn).isSome then dropTable S tn else S

/-- Pure effect of `create_table` on the store. -/
def storeCreate (S : Store) (tn : String) : Store :=
  if (getTable S tn).isSome then S else S ++ [(tn, [])]

/-- The list of entities `rename_table` copies into the destination:
the source scan converted to a dataframe, the `Timestamp` column
dropped, and each resulting record rebuilt as an entity. -/
def renameCopied (es : List Rec) : List Rec :=
  (DF.mk (eraseStr (unionKeys es) "Timestamp") es).toRecords.map builtEnt

/-- The per-entity transform of `copy_column`. -/
def copyColTrans (old_column new_column : String) (e : Rec) : Rec :=
  dictSet e new_column ((alookup old_column e).getD Val.nan)

/-- `w`-digit base-10 representation of a number, most significant
digit first (the mathematical reading of a zero-padded numeral). -/
def padDigits : Nat → Nat → List Nat
  | 0, _ => []
  | w + 1, n => n / 10 ^ w :: padDigits w (n % 10 ^ w)

/-- Digit count of the decimal representation (length of `str(n)`). -/
def numLen (n : Nat) : Nat :=
  if n < 10 then 1 else numLen (n / 10) + 1
decreasing_by exact Nat.div_lt_self (by omega) (by omega)

/-! ## Basic lemmas -/

@[simp] theorem Res.bind_ok (a : α) (s : St) (f : α → St → Res β) :
    Res.bind (.ok a s) f = f a s := rfl

@[simp] theorem Res.bind_err (e : Err) (s : St) (f : α → St → Res β) :
    Res.bind (.err e s) f = .err e s := rfl

@[simp] theorem Res.stateOf_ok (a : α) (s : St) : (Res.ok a s).stateOf = s := rfl

@[simp] theorem Res.stateOf_err (e : Err) (s : St) :
    (Res.err e s : Res α).stateOf = s := rfl

@[simp] theorem getTable_setTable_self (S : Store) (tn : String) (t : List Rec) :
    getTable (setTable S tn t) tn = some t := by
  induction S with
  | nil => simp [setTable, getTable]
  | cons p rest ih =>
    by_cases h : p.1 = tn
    · simp [setTable, getTable, h]
    · simp [setTable, getTable, h, ih]

theorem getTable_setTable_ne (S : Store) (tn tn' : String) (t : List Rec)
    (h : tn' ≠ tn) : getTable (setTable S tn t) tn' = getTable S tn' := by
  induction S with
  | nil => simp [setTable, getTable, Ne.symm h]
  | cons p rest ih =>
    by_cases hp : p.1 = tn
    · simp [setTable, getTable, hp, Ne.symm h]
    · by_cases hq : p.1 = tn'
      · simp [setTable, getTable, hp, hq, h]
      · simp [setTable, getTable, hp, hq, h, ih]

theorem setTable_self (S : Store) (tn : String) (t : List Rec)
    (h : getTable S tn = some t) : setTable S tn t = S := by
  induction S with
  | nil => simp [getTable] at h
  | cons p rest ih =>
    obtain ⟨a, b⟩ := p
    by_cases hp : a = tn
    · subst hp
      simp [getTable] at h
      subst h
      simp [setTable]
    · simp [getTable, hp] at h
      simp [setTable, hp, ih h]

@[simp] theorem getTable_dropTable_self (S : Store) (tn : String) :
    getTable (dropTable S tn) tn = none := by
  induction S with
  | nil => simp [dropTable, getTable]
  | cons p rest ih =>
    by_cases hp : p.1 = tn
    · simp [dropTable, hp, ih]
    · simp [dropTable, getTable, hp, ih]

theorem getTable_dropTable_ne (S : Store) (tn tn' : String) (h : tn' ≠ tn) :
    getTable (dropTable S tn) tn' = getTable S tn' := by
  induction S with
  | nil => simp [dropTable]
  | cons p rest ih =>
    obtain ⟨a, b⟩ := p
    by_cases hp : a = tn
    · subst hp
      simp [dropTable, getTable, Ne.symm h, ih]
    · by_cases hq : a = tn'
      · simp [dropTable, getTable, hp, hq, h]
      · simp [dropTable, getTable, hp, hq, ih]

theorem alookup_append (k : String) (r1 r2 : Rec) :
    alookup k (r1 ++ r2) =
      match alookup k r1 with
      | some v => some v
      | none => alookup k r2 := by
  induction r1 with
  | nil => simp [alookup]
  | cons kv rest ih =>
    by_cases hk : kv.1 = k
    · simp [alookup, hk]
    · simp [alookup, hk, ih]

theorem alookup_map_set (k : String) (v : Val) (r : Rec) :
    alookup k (r.map fun kv => if kv.1 = k then (kv.1, v) else kv) =
      (alookup k r).map fun _ => v := by
  induction r with
  | nil => simp [alookup]
  | cons kv rest ih =>
    by_cases hk : kv.1 = k
    · simp [alookup, hk]
    · simp [alookup, hk, ih]

theorem alookup_dictSet_self (r : Rec) (k : String) (v : Val) :
    alookup k (dictSet r k v) = some v := by
  unfold dictSet
  by_cases h : dictHas r k
  · rw [if_pos h, alookup_map_set]
    unfold dictHas at h
    cases hv : alookup k r
    · simp [hv] at h
    · simp
  · rw [if_neg h, alookup_append]
    unfold dictHas at h
    cases hv : alookup k r
    · simp [alookup]
    · simp [hv] at h

theorem alookup_map_set_ne (r : Rec) (k k' : String) (v : Val) (h : k' ≠ k) :
    alookup k' (r.map fun kv => if kv.1 = k then (kv.1, v) else kv) =
      alookup k' r := by
  induction r with
  | nil => simp [alookup]
  | cons kv rest ih =>
    by_cases hk : kv.1 = k
    · have hne : ¬kv.1 = k' := fun c => h (c ▸ hk)
      simp [alookup, hk, hne, Ne.symm h, ih]
    · by_cases hk' : kv.1 = k'
      · simp [alookup, hk, hk', h, Ne.symm h]
      · simp [alookup, hk, hk', ih]

theorem alookup_dictSet_ne (r : Rec) (k k' : String) (v : Val) (h : k' ≠ k) :
    alookup k' (dictSet r k v) = alookup k' r := by
  unfold dictSet
  by_cases hh : dictHas r k
  · rw [if_pos hh, alookup_map_set_ne _ _ _ _ h]
  · rw [if_neg hh, alookup_append]
    cases hv : alookup k' r
    · simp [alookup, Ne.symm h]
    · simp

theorem alookup_dictErase_self (r : Rec) (k : String) :
    alookup k (dictErase k r) = none := by
  induction r with
  | nil => simp [dictErase, alookup]
  | cons kv rest ih =>
    by_cases hk : kv.1 = k
    · simp [dictErase, hk, ih]
    · simp [dictErase, alookup, hk, ih]

theorem alookup_dictErase_ne (r : Rec) (k k' : String) (h : k' ≠ k) :
    alookup k' (dictErase k r) = alookup k' r := by
  induction r with
  | nil => simp [dictErase]
  | cons kv rest ih =>
    by_cases hk : kv.1 = k
    · have hne : ¬kv.1 = k' := fun c => h (c ▸ hk)
      simp [dictErase, alookup, hk, hne, h, Ne.symm h, ih]
    · by_cases hk' : kv.1 = k'
      · simp [dictErase, alookup, hk, hk', h, Ne.symm h]
      · simp [dictErase, alookup, hk, hk', ih]

theorem entKey?_dictSet (e : Rec) (k : String) (v : Val)
    (h1 : k ≠ "PartitionKey") (h2 : k ≠ "RowKey") :
    entKey? (dictSet e k v) = entKey? e := by
  unfold entKey?
  rw [alookup_dictSet_ne _ _ _ _ (Ne.symm h1), alookup_dictSet_ne _ _ _ _ (Ne.symm h2)]

theorem entKey?_dictErase (e : Rec) (k : String)
    (h1 : k ≠ "PartitionKey") (h2 : k ≠ "RowKey") :
    entKey? (dictErase k e) = entKey? e := by
  unfold entKey?
  rw [alookup_dictErase_ne _ _ _ (Ne.symm h1), alookup_dictErase_ne _ _ _ (Ne.symm h2)]

/-- Key/value map over an explicit column list: lookup returns the
generated value exactly when the column is listed. -/
theorem alookup_keyedMap (cols : List String) (k : String) (f : String → Val) :
    alookup k (cols.map fun c => (c, f c)) =
      if hasStr cols k then some (f k) else none := by
  induction cols with
  | nil => simp [alookup, hasStr]
  | cons c rest ih =>
    by_cases hc : c = k
    · subst hc
      simp [alookup, hasStr]
    · simp [alookup, hasStr, hc, ih]

/-! ## Lemmas about the store primitives and batch application -/

theorem entOK_elim {r : Rec} (h : entOK r) :
    ∃ p q, alookup "PartitionKey" r = some p ∧ alookup "RowKey" r = some q ∧
      entKey? r = some (p, q) := by
  obtain ⟨h1, h2⟩ := h
  cases hp : alookup "PartitionKey" r with
  | none => simp [hp] at h1
  | some p =>
    cases hq : alookup "RowKey" r with
    | none => simp [hq] at h2
    | some q => exact ⟨p, q, rfl, rfl, by simp [entKey?, hp, hq]⟩

theorem batchSamePK_all {ops : List Op} {p : Val}
    (h : ∀ o ∈ ops, Op.pk o = some p) : batchSamePK ops = true := by
  cases ops with
  | nil => rfl
  | cons o rest =>
    simp only [batchSamePK, List.all_eq_true, decide_eq_true_eq]
    intro o2 ho2
    rw [h o2 (List.mem_cons_of_mem _ ho2), h o (List.mem_cons_self _ _)]

theorem svcCommitBatch_ok {tn : String} {ops : List Op} {s : St} {x : Unit}
    {s' : St} (h : svcCommitBatch tn ops s = .ok x s') :
    ∃ t t2, getTable s.store tn = some t ∧ applyOps t ops = .ok t2 ∧
      s' = ⟨setTable s.store tn t2, s.events ++ [.commit tn ops]⟩ := by
  unfold svcCommitBatch at h
  split at h
  · exact absurd h (by simp)
  split at h
  · exact absurd h (by simp)
  split at h
  · exact absurd h (by simp)
  next t hget =>
    split at h
    · exact absurd h (by simp)
    next t2 happ =>
      refine ⟨t, t2, hget, happ, ?_⟩
      cases h
      rfl

theorem svcCommitBatch_eq_ok {tn : String} {ops : List Op} {s : St}
    {t t2 : List Rec} (hlen : ops.length ≤ 100) (hpk : batchSamePK ops = true)
    (hget : getTable s.store tn = some t) (happ : applyOps t ops = .ok t2) :
    svcCommitBatch tn ops s =
      .ok () ⟨setTable s.store tn t2, s.events ++ [.commit tn ops]⟩ := by
  unfold svcCommitBatch
  rw [if_neg (by omega), if_neg (by simp [hpk])]
  simp only [hget, happ]

/-- Deleting, in order, the keys of a leading block of entities removes
exactly that block. -/
theorem applyOps_delete_all (pend rest : List Rec)
    (hOK : ∀ r ∈ pend, entOK r)
    (hND : ((pend ++ rest).map entKey?).Nodup) :
    applyOps (pend ++ rest) (pend.map delOpOf) = .ok rest := by
  induction pend with
  | nil => simp [applyOps]
  | cons r pend' ih =>
    obtain ⟨p, q, hp, hq, hk⟩ := entOK_elim (hOK r (List.mem_cons_self _ _))
    have hop : delOpOf r = .del p q := by simp [delOpOf, hp, hq]
    have hstep : applyOp (r :: (pend' ++ rest)) (delOpOf r) = .ok (pend' ++ rest) := by
      rw [hop]
      simp [applyOp, delOne, List.any_cons, hk, eraseEnt]
    simp only [List.map_cons, List.cons_append, applyOps, hstep]
    exact ih (fun r hr => hOK r (List.mem_cons_of_mem _ hr))
      (by simpa using (List.nodup_cons.mp (by simpa using hND)).2)

/-! ## Step equations for the delete-batching loop -/

theorem goDelete_nil (tn : String) (curPK : Option Val) (count : Nat)
    (batch : List Op) (s : St) :
    goDelete tn [] curPK count batch s =
      if count > 0 then svcCommitBatch tn batch s else .ok () s := rfl

theorem goDelete_pkNone {e : Rec} (tn : String) (rest : List Rec)
    (curPK : Option Val) (count : Nat) (batch : List Op) (s : St)
    (hpk : alookup "PartitionKey" e = none) :
    goDelete tn (e :: rest) curPK count batch s =
      .err (.keyError "PartitionKey") s := by
  simp [goDelete, hpk]

theorem goDelete_flushNone {e : Rec} {epk erk : Val} (tn : String)
    (rest : List Rec) (count : Nat) (batch : List Op) (s : St)
    (hpk : alookup "PartitionKey" e = some epk)
    (hrk : alookup "RowKey" e = some erk) :
    goDelete tn (e :: rest) none count batch s =
      goDelete tn rest (some epk) 1 [Op.del epk erk] s := by
  simp [goDelete, hpk, hrk]

theorem goDelete_flushNone_rkNone {e : Rec} {epk : Val} (tn : String)
    (rest : List Rec) (count : Nat) (batch : List Op) (s : St)
    (hpk : alookup "PartitionKey" e = some epk)
    (hrk : alookup "RowKey" e = none) :
    goDelete tn (e :: rest) none count batch s = .err (.keyError "RowKey") s := by
  simp [goDelete, hpk, hrk]

theorem goDelete_flushCommit {e : Rec} {p epk erk : Val} (tn : String)
    (rest : List Rec) (count : Nat) (batch : List Op) (s : St)
    (hcond : p ≠ epk ∨ count = 100)
    (hpk : alookup "PartitionKey" e = some epk)
    (hrk : alookup "RowKey" e = some erk) :
    goDelete tn (e :: rest) (some p) count batch s =
      Res.bind (svcCommitBatch tn batch s) fun _ s2 =>
        goDelete tn rest (some epk) 1 [Op.del epk erk] s2 := by
  have hc : (some p ≠ some epk ∨ count = 100) := by
    rcases hcond with h | h
    · exact Or.inl (by simpa using h)
    · exact Or.inr h
  simp only [goDelete, hpk, hrk, if_pos hc, Option.isSome_some, if_true]

theorem goDelete_flushCommit_rkNone {e : Rec} {p epk : Val} (tn : String)
    (rest : List Rec) (count : Nat) (batch : List Op) (s : St)
    (hcond : p ≠ epk ∨ count = 100)
    (hpk : alookup "PartitionKey" e = some epk)
    (hrk : alookup "RowKey" e = none) :
    goDelete tn (e :: rest) (some p) count batch s =
      Res.bind (svcCommitBatch tn batch s) fun _ s2 =>
        .err (.keyError "RowKey") s2 := by
  have hc : (some p ≠ some epk ∨ count = 100) := by
    rcases hcond with h | h
    · exact Or.inl (by simpa using h)
    · exact Or.inr h
  simp only [goDelete, hpk, hrk, if_pos hc, Option.isSome_some, if_true]

theorem goDelete_acc {e : Rec} {epk erk : Val} (tn : String)
    (rest : List Rec) (count : Nat) (batch : List Op) (s : St)
    (hcount : count ≠ 100)
    (hpk : alookup "PartitionKey" e = some epk)
    (hrk : alookup "RowKey" e = some erk) :
    goDelete tn (e :: rest) (some epk) count batch s =
      goDelete tn rest (some epk) (count + 1) (batch ++ [Op.del epk erk]) s := by
  simp [goDelete, hpk, hrk, hcount]

theorem goDelete_acc_rkNone {e : Rec} {epk : Val} (tn : String)
    (rest : List Rec) (count : Nat) (batch : List Op) (s : St)
    (hcount : count ≠ 100)
    (hpk : alookup "PartitionKey" e = some epk)
    (hrk : alookup "RowKey" e = none) :
    goDelete tn (e :: rest) (some epk) count batch s =
      .err (.keyError "RowKey") s := by
  simp [goDelete, hpk, hrk, hcount]

/-- A successful run of the delete-batching loop commits a sequence of
batches whose concatenation is exactly the pending batch followed by
one delete operation per remaining entity, in input order, every batch
non-empty and of at most 100 operations. -/
theorem goDelete_events (tn : String) (es : List Rec) :
    ∀ (curPK : Option Val) (count : Nat) (batch : List Op) (s : St) (x : Unit)
      (s' : St),
      goDelete tn es curPK count batch s = .ok x s' →
      batch.length = count → count ≤ 100 →
      (curPK = none → batch = []) →
      (curPK.isSome = true → 0 < count) →
      ∃ bs : List (List Op),
        s'.events = s.events ++ bs.map (Ev.commit tn) ∧
        bs.flatten = batch ++ es.map delOpOf ∧
        ∀ b ∈ bs, b ≠ [] ∧ b.length ≤ 100 := by
  induction es with
  | nil =>
    intro curPK count batch s x s' hrun hlen hle _ _
    rw [goDelete_nil] at hrun
    by_cases hc : count > 0
    · rw [if_pos hc] at hrun
      obtain ⟨t, t2, hget, happ, rfl⟩ := svcCommitBatch_ok hrun
      refine ⟨[batch], by simp, by simp, ?_⟩
      intro b hb
      rw [List.mem_singleton.mp hb]
      exact ⟨List.length_pos.mp (by omega), by omega⟩
    · rw [if_neg hc] at hrun
      cases hrun
      have hb : batch = [] := List.eq_nil_of_length_eq_zero (by omega)
      exact ⟨[], by simp, by simp [hb], by simp⟩
  | cons e rest ih =>
    intro curPK count batch s x s' hrun hlen hle hnone hsome
    cases hpk : alookup "PartitionKey" e with
    | none =>
      rw [goDelete_pkNone tn rest curPK count batch s hpk] at hrun
      exact absurd hrun (by simp)
    | some epk =>
      cases hcur : curPK with
      | none =>
        have hbatch : batch = [] := hnone hcur
        subst hcur
        cases hrk : alookup "RowKey" e with
        | none =>
          rw [goDelete_flushNone_rkNone tn rest count batch s hpk hrk] at hrun
          exact absurd hrun (by simp)
        | some erk =>
          rw [goDelete_flushNone tn rest count batch s hpk hrk] at hrun
          obtain ⟨bs, hev, hjoin, hbnd⟩ :=
            ih (some epk) 1 [Op.del epk erk] s x s' hrun rfl (by omega)
              (by simp) (fun _ => by omega)
          refine ⟨bs, hev, ?_, hbnd⟩
          rw [hjoin, hbatch]
          simp [delOpOf, hpk, hrk]
      | some p =>
        subst hcur
        by_cases hcond : p ≠ epk ∨ count = 100
        · cases hrk : alookup "RowKey" e with
          | none =>
            rw [goDelete_flushCommit_rkNone tn rest count batch s hcond hpk hrk]
              at hrun
            cases hcb : svcCommitBatch tn batch s with
            | ok u s2 =>
              rw [hcb, Res.bind_ok] at hrun
              exact absurd hrun (by simp)
            | err e2 s2 =>
              rw [hcb] at hrun
              exact absurd hrun (by simp [Res.bind])
          | some erk =>
            rw [goDelete_flushCommit tn rest count batch s hcond hpk hrk] at hrun
            cases hcb : svcCommitBatch tn batch s with
            | err e2 s2 =>
              rw [hcb] at hrun
              exact absurd hrun (by simp [Res.bind])
            | ok u s2 =>
              rw [hcb, Res.bind_ok] at hrun
              obtain ⟨t, t2, hget, happ, hs2⟩ := svcCommitBatch_ok hcb
              obtain ⟨bs, hev, hjoin, hbnd⟩ :=
                ih (some epk) 1 [Op.del epk erk] s2 x s' hrun rfl (by omega)
                  (by simp) (fun _ => by omega)
              refine ⟨batch :: bs, ?_, ?_, ?_⟩
              · rw [hev, hs2]
                simp
              · simp only [List.flatten_cons, hjoin]
                simp [delOpOf, hpk, hrk]
              · intro b hb
                rcases List.mem_cons.mp hb with rfl | hb2
                · exact ⟨List.length_pos.mp
                    (by rw [hlen]; exact hsome (by simp)), by omega⟩
                · exact hbnd b hb2
        · push_neg at hcond
          obtain ⟨hpeq, hcount⟩ := hcond
          subst hpeq
          cases hrk : alookup "RowKey" e with
          | none =>
            rw [goDelete_acc_rkNone tn rest count batch s hcount hpk hrk] at hrun
            exact absurd hrun (by simp)
          | some erk =>
            rw [goDelete_acc tn rest count batch s hcount hpk hrk] at hrun
            obtain ⟨bs, hev, hjoin, hbnd⟩ :=
              ih (some p) (count + 1) (batch ++ [Op.del p erk]) s x s' hrun
                (by simp [hlen]) (by omega) (by simp) (fun _ => by omega)
            refine ⟨bs, hev, ?_, hbnd⟩
            rw [hjoin]
            simp [delOpOf, hpk, hrk]

theorem setTable_setTable (S : Store) (tn : String) (a b : List Rec) :
    setTable (setTable S tn a) tn b = setTable S tn b := by
  induction S with
  | nil => simp [setTable]
  | cons p rest ih =>
    by_cases hp : p.1 = tn
    · simp [setTable, hp]
    · simp [setTable, hp, ih]

theorem batchSamePK_delOps {pend : List Rec} {p : Val}
    (hall : ∀ r ∈ pend, alookup "PartitionKey" r = some p) :
    batchSamePK (pend.map delOpOf) = true := by
  apply batchSamePK_all (p := p)
  intro o ho
  obtain ⟨r, hr, rfl⟩ := List.mem_map.mp ho
  simp [delOpOf, Op.pk, hall r hr]

/-- On a well-formed table the delete-batching loop succeeds and leaves
the table empty. -/
theorem goDelete_ok (tn : String) (es : List Rec) :
    ∀ (pend : List Rec) (curPK : Option Val) (s : St),
      getTable s.store tn = some (pend ++ es) →
      (∀ r ∈ pend ++ es, entOK r) →
      ((pend ++ es).map entKey?).Nodup →
      pend.length ≤ 100 →
      (curPK = none → pend = []) →
      (∀ p, curPK = some p → 0 < pend.length ∧
        ∀ r ∈ pend, alookup "PartitionKey" r = some p) →
      ∃ s', goDelete tn es curPK pend.length (pend.map delOpOf) s = .ok () s' ∧
        s'.store = setTable s.store tn [] := by
  induction es with
  | nil =>
    intro pend curPK s hget hOK hND hle hnone hsome
    rw [goDelete_nil]
    by_cases hc : pend.length > 0
    · rw [if_pos hc]
      cases hcur : curPK with
      | none =>
        rw [hnone hcur] at hc
        simp at hc
      | some p =>
        obtain ⟨-, hall⟩ := hsome p hcur
        have hsame := batchSamePK_delOps hall
        have happ := applyOps_delete_all pend []
          (fun r hr => hOK r (by simpa using hr)) (by simpa using hND)
        rw [svcCommitBatch_eq_ok (by simpa using hle) hsame hget happ]
        exact ⟨_, rfl, rfl⟩
    · rw [if_neg hc]
      have hp : pend = [] := List.eq_nil_of_length_eq_zero (by omega)
      refine ⟨s, rfl, ?_⟩
      rw [setTable_self s.store tn [] (by simpa [hp] using hget)]
  | cons e rest ih =>
    intro pend curPK s hget hOK hND hle hnone hsome
    obtain ⟨pe, qe, hpk, hrk, hkey⟩ := entOK_elim (hOK e (by simp))
    cases hcur : curPK with
    | none =>
      have hpend : pend = [] := hnone hcur
      subst hpend
      rw [goDelete_flushNone tn rest _ _ s hpk hrk]
      obtain ⟨s', hrun, hstore⟩ := ih [e] (some pe) s
        (by simpa using hget) (by simpa using hOK) (by simpa using hND)
        (by simp) (by simp)
        (by
          intro p' hp'
          refine ⟨by simp, ?_⟩
          intro r hr
          rw [List.mem_singleton.mp hr, hpk]
          exact hp')
      refine ⟨s', ?_, hstore⟩
      simpa [delOpOf, hpk, hrk] using hrun
    | some p =>
      subst hcur
      by_cases hcond : p ≠ pe ∨ pend.length = 100
      · rw [goDelete_flushCommit tn rest _ _ s hcond hpk hrk]
        obtain ⟨-, hall⟩ := hsome p rfl
        have hsame := batchSamePK_delOps hall
        have happ := applyOps_delete_all pend (e :: rest)
          (fun r hr => hOK r (List.mem_append_left _ hr)) hND
        rw [svcCommitBatch_eq_ok (by simpa using hle) hsame hget happ, Res.bind_ok]
        obtain ⟨s', hrun, hstore⟩ := ih [e] (some pe)
          ⟨setTable s.store tn (e :: rest),
            s.events ++ [.commit tn (pend.map delOpOf)]⟩
          (by simp [getTable_setTable_self])
          (fun r hr => hOK r (by
            rcases List.mem_append.mp hr with h1 | h2
            · have he : r = e := by simpa using h1
              subst he
              exact List.mem_append_right _ (List.mem_cons_self _ _)
            · exact List.mem_append_right _ (List.mem_cons_of_mem _ h2)))
          (by
            have := (by simpa [List.map_append] using hND :
              ((pend.map entKey? : List (Option (Val × Val))) ++
                (e :: rest).map entKey?).Nodup)
            simpa using this.of_append_right)
          (by simp) (by simp)
          (by
            intro p' hp'
            refine ⟨by simp, ?_⟩
            intro r hr
            rw [List.mem_singleton.mp hr, hpk]
            exact hp')
        refine ⟨s', ?_, ?_⟩
        · simpa [delOpOf, hpk, hrk] using hrun
        · rw [hstore]
          simp [setTable_setTable]
      · push_neg at hcond
        obtain ⟨hpeq, hcount⟩ := hcond
        subst hpeq
        rw [goDelete_acc tn rest _ _ s hcount hpk hrk]
        obtain ⟨s', hrun, hstore⟩ := ih (pend ++ [e]) (some p) s
          (by simpa using hget)
          (fun r hr => hOK r (by
            rcases List.mem_append.mp hr with h1 | h2
            · rcases List.mem_append.mp h1 with h3 | h4
              · exact List.mem_append_left _ h3
              · have he : r = e := by simpa using h4
                subst he
                exact List.mem_append_right _ (List.mem_cons_self _ _)
            · exact List.mem_append_right _ (List.mem_cons_of_mem _ h2)))
          (by simpa using hND)
          (by simp; omega) (by simp)
          (by
            intro p' hp'
            obtain ⟨-, hall⟩ := hsome p rfl
            have hpp : p' = p := by simpa using hp'.symm
            subst hpp
            refine ⟨by simp, ?_⟩
            intro r hr
            rcases List.mem_append.mp hr with h1 | h2
            · exact hall r h1
            · rw [List.mem_singleton.mp h2, hpk])
        refine ⟨s', ?_, hstore⟩
        simpa [delOpOf, hpk, hrk] using hrun

/-! ## Lemmas about entity construction and the write loops -/

theorem mkEntity_ok {row : Rec} {p q : Val}
    (hp : alookup "PartitionKey" row = some p)
    (hq : alookup "RowKey" row = some q) :
    mkEntity row = .ok (builtEnt row) := by
  simp [mkEntity, hp, hq, builtEnt]

theorem mkEntity_err_pk {row : Rec} (hp : alookup "PartitionKey" row = none) :
    mkEntity row = .error (.keyError "PartitionKey") := by
  simp [mkEntity, hp]

theorem mkEntity_err_rk {row : Rec} {p : Val}
    (hp : alookup "PartitionKey" row = some p)
    (hq : alookup "RowKey" row = none) :
    mkEntity row = .error (.keyError "RowKey") := by
  simp [mkEntity, hp, hq]

theorem mkEntity_ok_inv {row ent : Rec} (h : mkEntity row = .ok ent) :
    ent = builtEnt row ∧ entOK row := by
  unfold mkEntity at h
  split at h
  · exact absurd h (by simp)
  next p hp =>
    split at h
    · exact absurd h (by simp)
    next q hq =>
      cases h
      exact ⟨by simp [builtEnt, hp, hq], by simp [entOK, hp, hq]⟩

theorem goWrite_nil (tn : String) (batch : List Op) (count : Nat) (s : St) :
    goWrite tn [] batch count s =
      if count > 0 then svcCommitBatch tn batch s else .ok () s := rfl

theorem goWrite_cons_err {row : Rec} {er : Err} (tn : String) (rest : List Rec)
    (batch : List Op) (count : Nat) (s : St)
    (hmk : mkEntity row = .error er) :
    goWrite tn (row :: rest) batch count s = .err er s := by
  simp [goWrite, hmk]

theorem goWrite_cons_commit {row ent : Rec} (tn : String) (rest : List Rec)
    (batch : List Op) (count : Nat) (s : St)
    (hmk : mkEntity row = .ok ent) (hc : count + 1 = 100) :
    goWrite tn (row :: rest) batch count s =
      Res.bind (svcCommitBatch tn (batch ++ [Op.ins ent]) s) fun _ s2 =>
        goWrite tn rest [] 0 s2 := by
  simp [goWrite, hmk, hc]

theorem goWrite_cons_acc {row ent : Rec} (tn : String) (rest : List Rec)
    (batch : List Op) (count : Nat) (s : St)
    (hmk : mkEntity row = .ok ent) (hc : count + 1 ≠ 100) :
    goWrite tn (row :: rest) batch count s =
      goWrite tn rest (batch ++ [Op.ins ent]) (count + 1) s := by
  simp [goWrite, hmk, hc]

/-- A successful run of the write-batching loop commits a sequence of
batches whose concatenation is exactly the pending batch followed by
one insert operation per input row, in input order, every batch
non-empty and of at most 100 operations. -/
theorem goWrite_events (tn : String) (rows : List Rec) :
    ∀ (batch : List Op) (count : Nat) (s : St) (x : Unit) (s' : St),
      goWrite tn rows batch count s = .ok x s' →
      batch.length = count → count < 100 →
      ∃ bs : List (List Op),
        s'.events = s.events ++ bs.map (Ev.commit tn) ∧
        bs.flatten = batch ++ rows.map insOpOf ∧
        ∀ b ∈ bs, b ≠ [] ∧ b.length ≤ 100 := by
  induction rows with
  | nil =>
    intro batch count s x s' hrun hlen hlt
    rw [goWrite_nil] at hrun
    by_cases hc : count > 0
    · rw [if_pos hc] at hrun
      obtain ⟨t, t2, hget, happ, rfl⟩ := svcCommitBatch_ok hrun
      refine ⟨[batch], by simp, by simp, ?_⟩
      intro b hb
      rw [List.mem_singleton.mp hb]
      exact ⟨List.length_pos.mp (by omega), by omega⟩
    · rw [if_neg hc] at hrun
      cases hrun
      have hb : batch = [] := List.eq_nil_of_length_eq_zero (by omega)
      exact ⟨[], by simp, by simp [hb], by simp⟩
  | cons row rest ih =>
    intro batch count s x s' hrun hlen hlt
    cases hmk : mkEntity row with
    | error er =>
      rw [goWrite_cons_err tn rest batch count s hmk] at hrun
      exact absurd hrun (by simp)
    | ok ent =>
      obtain ⟨hent, -⟩ := mkEntity_ok_inv hmk
      by_cases hc : count + 1 = 100
      · rw [goWrite_cons_commit tn rest batch count s hmk hc] at hrun
        cases hcb : svcCommitBatch tn (batch ++ [Op.ins ent]) s with
        | err e2 s2 =>
          rw [hcb] at hrun
          exact absurd hrun (by simp [Res.bind])
        | ok u s2 =>
          rw [hcb, Res.bind_ok] at hrun
          obtain ⟨t, t2, hget, happ, hs2⟩ := svcCommitBatch_ok hcb
          obtain ⟨bs, hev, hjoin, hbnd⟩ :=
            ih [] 0 s2 x s' hrun rfl (by omega)
          refine ⟨(batch ++ [Op.ins ent]) :: bs, ?_, ?_, ?_⟩
          · rw [hev, hs2]
            simp
          · simp only [List.flatten_cons, hjoin]
            simp [insOpOf, hent]
          · intro b hb
            rcases List.mem_cons.mp hb with rfl | hb2
            · exact ⟨by simp, by simp [hlen]; omega⟩
            · exact hbnd b hb2
      · rw [goWrite_cons_acc tn rest batch count s hmk hc] at hrun
        obtain ⟨bs, hev, hjoin, hbnd⟩ :=
          ih (batch ++ [Op.ins ent]) (count + 1) s x s' hrun
            (by simp [hlen]) (by omega)
        refine ⟨bs, hev, ?_, hbnd⟩
        rw [hjoin]
        simp [insOpOf, hent]

theorem svcCommitBatch_err {tn : String} {ops : List Op} {s : St} {e : Err}
    {s' : St} (h : svcCommitBatch tn ops s = .err e s') : s' = s := by
  unfold svcCommitBatch at h
  split at h
  · cases h; rfl
  split at h
  · cases h; rfl
  split at h
  · cases h; rfl
  next t hget =>
    split at h
    · cases h; rfl
    · exact absurd h (by simp)

/-- Whatever the outcome, the delete-batching loop only ever emits
commit events for batches made of delete operations. -/
theorem goDelete_events_shape (tn : String) (es : List Rec) :
    ∀ (curPK : Option Val) (count : Nat) (batch : List Op) (s : St),
      (∀ o ∈ batch, o.isDel = true) →
      ∃ evs, (goDelete tn es curPK count batch s).stateOf.events =
          s.events ++ evs ∧
        ∀ ev ∈ evs, ∃ ops, ev = Ev.commit tn ops ∧ ∀ o ∈ ops, o.isDel = true := by
  induction es with
  | nil =>
    intro curPK count batch s hdel
    rw [goDelete_nil]
    by_cases hc : count > 0
    · rw [if_pos hc]
      cases hcb : svcCommitBatch tn batch s with
      | ok u s2 =>
        obtain ⟨t, t2, hget, happ, rfl⟩ := svcCommitBatch_ok hcb
        refine ⟨[.commit tn batch], by simp, ?_⟩
        intro ev hev
        rw [List.mem_singleton.mp hev]
        exact ⟨batch, rfl, hdel⟩
      | err e2 s2 =>
        have h2 := svcCommitBatch_err hcb
        subst h2
        exact ⟨[], by simp, by simp⟩
    · rw [if_neg hc]
      exact ⟨[], by simp, by simp⟩
  | cons e rest ih =>
    intro curPK count batch s hdel
    cases hpk : alookup "PartitionKey" e with
    | none =>
      rw [goDelete_pkNone tn rest curPK count batch s hpk]
      exact ⟨[], by simp, by simp⟩
    | some epk =>
      cases curPK with
      | none =>
        cases hrk : alookup "RowKey" e with
        | none =>
          rw [goDelete_flushNone_rkNone tn rest count batch s hpk hrk]
          exact ⟨[], by simp, by simp⟩
        | some erk =>
          rw [goDelete_flushNone tn rest count batch s hpk hrk]
          exact ih (some epk) 1 [Op.del epk erk] s (by simp [Op.isDel])
      | some p =>
        by_cases hcond : p ≠ epk ∨ count = 100
        · cases hrk : alookup "RowKey" e with
          | none =>
            rw [goDelete_flushCommit_rkNone tn rest count batch s hcond hpk hrk]
            cases hcb : svcCommitBatch tn batch s with
            | ok u s2 =>
              obtain ⟨t, t2, hget, happ, rfl⟩ := svcCommitBatch_ok hcb
              refine ⟨[.commit tn batch], by simp [Res.bind], ?_⟩
              intro ev hev
              rw [List.mem_singleton.mp hev]
              exact ⟨batch, rfl, hdel⟩
            | err e2 s2 =>
              have h2 := svcCommitBatch_err hcb
              subst h2
              exact ⟨[], by simp [Res.bind], by simp⟩
          | some erk =>
            rw [goDelete_flushCommit tn rest count batch s hcond hpk hrk]
            cases hcb : svcCommitBatch tn batch s with
            | ok u s2 =>
              obtain ⟨t, t2, hget, happ, hs2⟩ := svcCommitBatch_ok hcb
              rw [Res.bind_ok]
              obtain ⟨evs, hev, hprop⟩ :=
                ih (some epk) 1 [Op.del epk erk] s2 (by simp [Op.isDel])
              refine ⟨.commit tn batch :: evs, ?_, ?_⟩
              · rw [hev, hs2]
                simp
              · intro ev hev2
                rcases List.mem_cons.mp hev2 with rfl | h2
                · exact ⟨batch, rfl, hdel⟩
                · exact hprop ev h2
            | err e2 s2 =>
              have h2 := svcCommitBatch_err hcb
              subst h2
              exact ⟨[], by simp [Res.bind], by simp⟩
        · push_neg at hcond
          obtain ⟨hpeq, hcount⟩ := hcond
          subst hpeq
          cases hrk : alookup "RowKey" e with
          | none =>
            rw [goDelete_acc_rkNone tn rest count batch s hcount hpk hrk]
            exact ⟨[], by simp, by simp⟩
          | some erk =>
            rw [goDelete_acc tn rest count batch s hcount hpk hrk]
            refine ih (some p) (count + 1) (batch ++ [Op.del p erk]) s ?_
            intro o ho
            rcases List.mem_append.mp ho with h1 | h2
            · exact hdel o h1
            · rw [List.mem_singleton.mp h2]
              rfl

/-- Whatever the outcome, `delete_all_rows_batch` only emits a scan
event and commit events of delete-only batches. -/
theorem delete_all_rows_events_shape (tn : String) (s : St) :
    ∃ evs, (delete_all_rows_batch tn s).stateOf.events = s.events ++ evs ∧
      ∀ ev ∈ evs, ev = Ev.scan tn ∨
        ∃ ops, ev = Ev.commit tn ops ∧ ∀ o ∈ ops, o.isDel = true := by
  unfold delete_all_rows_batch svcQueryEntities
  cases hg : getTable s.store tn with
  | none =>
    simp only [hg, Res.bind_err]
    exact ⟨[], by simp, by simp⟩
  | some es =>
    simp only [hg, Res.bind_ok]
    obtain ⟨evs, hev, hprop⟩ := goDelete_events_shape tn es none 0 []
      ⟨s.store, s.events ++ [.scan tn]⟩ (by simp)
    refine ⟨.scan tn :: evs, ?_, ?_⟩
    · rw [hev]
      simp
    · intro ev hev2
      rcases List.mem_cons.mp hev2 with rfl | h2
      · exact Or.inl rfl
      · exact Or.inr (hprop ev h2)

/-- On a well-formed table, `delete_all_rows_batch` succeeds and leaves
the table empty. -/
theorem delete_all_rows_batch_ok {tn : String} {s : St} {es : List Rec}
    (hget : getTable s.store tn = some es)
    (hOK : ∀ r ∈ es, entOK r)
    (hND : (es.map entKey?).Nodup) :
    ∃ s', delete_all_rows_batch tn s = .ok () s' ∧
      s'.store = setTable s.store tn [] := by
  unfold delete_all_rows_batch svcQueryEntities
  simp only [hget, Res.bind_ok]
  obtain ⟨s', hrun, hstore⟩ := goDelete_ok tn es [] none
    ⟨s.store, s.events ++ [.scan tn]⟩ (by simpa using hget) (by simpa using hOK)
    (by simpa using hND) (by simp) (fun _ => rfl)
    (fun p hp => absurd hp (by simp))
  exact ⟨s', by simpa using hrun, by simpa using hstore⟩

/-- On an empty table, `delete_all_rows_batch` succeeds at once: one
scan event, no commits, store untouched. -/
theorem delete_all_rows_batch_empty {tn : String} {s : St}
    (hget : getTable s.store tn = some []) :
    delete_all_rows_batch tn s = .ok () ⟨s.store, s.events ++ [.scan tn]⟩ := by
  unfold delete_all_rows_batch svcQueryEntities
  simp only [hget, Res.bind_ok]
  rw [goDelete_nil, if_neg (by omega)]

theorem ensureTable_ok (tn : String) (s : St) :
    (getTable s.store tn).isSome = true ∧ ensureTable tn s = .ok () s ∨
    getTable s.store tn = none ∧ ensureTable tn s =
      .ok () ⟨s.store ++ [(tn, [])], s.events ++ [.createTable tn]⟩ := by
  unfold ensureTable table_exists svcExists create_table svcCreateTable
  cases hg : getTable s.store tn with
  | some t => exact Or.inl ⟨by simp [hg], by simp [hg]⟩
  | none => exact Or.inr ⟨rfl, by simp [table_exists, svcExists, hg]⟩

theorem Res.bind_assoc (m : Res α) (f : α → St → Res β)
    (g : β → St → Res γ) :
    Res.bind (Res.bind m f) g = Res.bind m fun a s => Res.bind (f a s) g := by
  cases m <;> rfl

theorem goWriteOne_nil (tn : String) (s : St) : goWriteOne tn [] s = .ok () s :=
  rfl

theorem goWriteOne_cons_err {row : Rec} {er : Err} (tn : String)
    (rest : List Rec) (s : St) (hmk : mkEntity row = .error er) :
    goWriteOne tn (row :: rest) s = .err er s := by
  simp [goWriteOne, hmk]

theorem goWriteOne_cons_ok {row ent : Rec} (tn : String) (rest : List Rec)
    (s : St) (hmk : mkEntity row = .ok ent) :
    goWriteOne tn (row :: rest) s =
      Res.bind (svcInsertEntity tn ent s) fun _ s2 => goWriteOne tn rest s2 := by
  simp [goWriteOne, hmk]

theorem mkEntity_toRecord_err (df : DF) (r : Rec)
    (hmiss : hasStr df.cols "PartitionKey" = false ∨
      hasStr df.cols "RowKey" = false) :
    ∃ er, mkEntity (df.cols.map fun c => (c, (alookup c r).getD Val.nan)) =
      .error er := by
  rcases hmiss with h | h
  · exact ⟨_, mkEntity_err_pk (by rw [alookup_keyedMap]; simp [h])⟩
  · by_cases hp : hasStr df.cols "PartitionKey"
    · exact ⟨_, mkEntity_err_rk (p := (alookup "PartitionKey" r).getD Val.nan)
        (by rw [alookup_keyedMap]; simp [hp])
        (by rw [alookup_keyedMap]; simp [h])⟩
    · exact ⟨_, mkEntity_err_pk (by rw [alookup_keyedMap]; simp [hp])⟩

/-- The shared preamble of the two write functions (create table if
missing, truncate if asked) always yields a state whose extra events
contain no entity insert and no insert-operation commit. -/
theorem preamble_char (tn : String) (tr : Bool) (s : St) :
    (∃ sx, (Res.bind (ensureTable tn s) fun _ s1 =>
        if tr then delete_all_rows_batch tn s1 else .ok () s1) = .ok () sx ∧
      ∃ evs, sx.events = s.events ++ evs ∧
        ∀ ev ∈ evs, ev.isInsert = false ∧
          ∀ tn2 ops, ev = Ev.commit tn2 ops → ∀ o ∈ ops, o.isDel = true) ∨
    (∃ e sx, (Res.bind (ensureTable tn s) fun _ s1 =>
        if tr then delete_all_rows_batch tn s1 else .ok () s1) = .err e sx ∧
      ∃ evs, sx.events = s.events ++ evs ∧
        ∀ ev ∈ evs, ev.isInsert = false ∧
          ∀ tn2 ops, ev = Ev.commit tn2 ops → ∀ o ∈ ops, o.isDel = true) := by
  have hgood : ∀ (s1 : St) (evs0 : List Ev),
      s1.events = s.events ++ evs0 →
      (∀ ev ∈ evs0, ev.isInsert = false ∧
        ∀ tn2 ops, ev = Ev.commit tn2 ops → ∀ o ∈ ops, o.isDel = true) →
      (∃ sx, (if tr then delete_all_rows_batch tn s1 else .ok () s1) = .ok () sx ∧
        ∃ evs, sx.events = s.events ++ evs ∧
          ∀ ev ∈ evs, ev.isInsert = false ∧
            ∀ tn2 ops, ev = Ev.commit tn2 ops → ∀ o ∈ ops, o.isDel = true) ∨
      (∃ e sx, (if tr then delete_all_rows_batch tn s1 else .ok () s1) = .err e sx ∧
        ∃ evs, sx.events = s.events ++ evs ∧
          ∀ ev ∈ evs, ev.isInsert = false ∧
            ∀ tn2 ops, ev = Ev.commit tn2 ops → ∀ o ∈ ops, o.isDel = true) := by
    intro s1 evs0 hev0 hprop0
    cases tr with
    | false => exact Or.inl ⟨s1, by simp, evs0, hev0, hprop0⟩
    | true =>
      obtain ⟨evsD, hevD, hpropD⟩ := delete_all_rows_events_shape tn s1
      have hcombine : ∀ (sx : St),
          sx.events = s1.events ++ evsD →
          ∃ evs, sx.events = s.events ++ evs ∧
            ∀ ev ∈ evs, ev.isInsert = false ∧
              ∀ tn2 ops, ev = Ev.commit tn2 ops → ∀ o ∈ ops, o.isDel = true := by
        intro sx hsx
        refine ⟨evs0 ++ evsD, by rw [hsx, hev0]; simp, ?_⟩
        intro ev hev
        rcases List.mem_append.mp hev with h1 | h2
        · exact hprop0 ev h1
        · rcases hpropD ev h2 with rfl | ⟨ops, rfl, hdel⟩
          · exact ⟨rfl, fun tn2 ops2 he => by cases he⟩
          · refine ⟨rfl, ?_⟩
            intro tn2 ops2 he
            cases he
            exact hdel
      cases hd : delete_all_rows_batch tn s1 with
      | ok u s2 =>
        cases u
        refine Or.inl ⟨s2, by simp [hd], hcombine s2 ?_⟩
        have : (delete_all_rows_batch tn s1).stateOf = s2 := by rw [hd]; rfl
        rw [← this]
        exact hevD
      | err e2 s2 =>
        refine Or.inr ⟨e2, s2, by simp [hd], hcombine s2 ?_⟩
        have : (delete_all_rows_batch tn s1).stateOf = s2 := by rw [hd]; rfl
        rw [← this]
        exact hevD
  rcases ensureTable_ok tn s with ⟨-, heq⟩ | ⟨-, heq⟩
  · rw [heq, Res.bind_ok]
    exact hgood s [] (by simp) (by simp)
  · rw [heq, Res.bind_ok]
    exact hgood _ [.createTable tn] (by simp) (by simp [Ev.isInsert])

/-! ## Claim theorems -/

/-- C1 (code bug evidence): the claim says the batched writer flushes
the current batch whenever the incoming entity's `PartitionKey` differs
from the batch's current key, so that every committed batch is
single-partition. The code keys its flush on nothing but the count: on
a two-row dataframe with distinct partition keys "a" and "b" it
accumulates both rows into one batch, and committing that batch
violates the store's single-partition-key batch contract (spec §6; the
Azure SDK likewise refuses a batch whose entities carry different
partition keys), so the call fails and nothing is committed. -/
theorem C1_writer_never_flushes_on_partition_change :
    write_df_to_azure_table_batch "t"
      ⟨["PartitionKey", "RowKey"],
       [[("PartitionKey", .str "a"), ("RowKey", .str "1")],
        [("PartitionKey", .str "b"), ("RowKey", .str "2")]]⟩ false
      ⟨[("t", [])], []⟩ =
      .err .mixedPartitionKeys ⟨[("t", [])], []⟩ := by
  decide

/-- C3: for any run of the batching functions that completes, the
operations across all committed batches are exactly the input entities
(one insert per input row of the batched writer, one delete per scanned
entity of the batched deleter), each exactly once and in input order
(their concatenation in commit order equals the input sequence), and
every committed batch is non-empty with at most 100 operations —
never 101. -/
theorem C3_batch_grouping_exact (tn : String) (df : DF) (s : St) (x1 : Unit)
    (s1 : St) (t0 es : List Rec) (sD : St) (x2 : Unit) (s2 : St) :
    (getTable s.store tn = some t0 →
      write_df_to_azure_table_batch tn df false s = .ok x1 s1 →
      ∃ bs : List (List Op),
        s1.events = s.events ++ bs.map (Ev.commit tn) ∧
        bs.flatten = df.toRecords.map insOpOf ∧
        ∀ b ∈ bs, b ≠ [] ∧ b.length ≤ 100) ∧
    (getTable sD.store tn = some es →
      delete_all_rows_batch tn sD = .ok x2 s2 →
      ∃ bs : List (List Op),
        s2.events = sD.events ++ [.scan tn] ++ bs.map (Ev.commit tn) ∧
        bs.flatten = es.map delOpOf ∧
        ∀ b ∈ bs, b ≠ [] ∧ b.length ≤ 100) := by
  constructor
  · intro hget hrun
    unfold write_df_to_azure_table_batch at hrun
    have hens : ensureTable tn s = .ok () s := by
      rcases ensureTable_ok tn s with ⟨-, h⟩ | ⟨hnone, -⟩
      · exact h
      · rw [hget] at hnone
        cases hnone
    rw [hens, Res.bind_ok, if_neg (by simp), Res.bind_ok] at hrun
    exact goWrite_events tn df.toRecords [] 0 s x1 s1 hrun rfl (by omega)
  · intro hget hrun
    unfold delete_all_rows_batch svcQueryEntities at hrun
    simp only [hget, Res.bind_ok] at hrun
    obtain ⟨bs, hev, hjoin, hbnd⟩ := goDelete_events tn es none 0 []
      ⟨sD.store, sD.events ++ [.scan tn]⟩ x2 s2 hrun rfl (by omega)
      (fun _ => rfl) (by simp)
    exact ⟨bs, by simpa using hev, hjoin, hbnd⟩

/-- C5: when a row of the submitted dataframe lacks the `PartitionKey`
or `RowKey` key (for a dataframe this means the column is absent, so
the first row already lacks it), both the batched and the one-by-one
writer fail with a `KeyError` before inserting anything: the run ends
in an error, and the events it issued contain no single-entity insert
and no committed insert operation (with `truncate=True` the truncation
phase may commit delete-only batches, which concern no row of the
input). -/
theorem C5_missing_keys_rejected (tn : String) (df : DF) (tr : Bool) (s : St)
    (hrows : df.rows ≠ [])
    (hmiss : hasStr df.cols "PartitionKey" = false ∨
      hasStr df.cols "RowKey" = false) :
    ((write_df_to_azure_table_batch tn df tr s).isOk = false ∧
      ∃ evs, (write_df_to_azure_table_batch tn df tr s).stateOf.events =
          s.events ++ evs ∧
        ∀ ev ∈ evs, ev.isInsert = false ∧
          ∀ tn2 ops, ev = Ev.commit tn2 ops → ∀ o ∈ ops, o.isDel = true) ∧
    ((write_df_to_azure_table tn df tr s).isOk = false ∧
      ∃ evs, (write_df_to_azure_table tn df tr s).stateOf.events =
          s.events ++ evs ∧
        ∀ ev ∈ evs, ev.isInsert = false ∧
          ∀ tn2 ops, ev = Ev.commit tn2 ops → ∀ o ∈ ops, o.isDel = true) := by
  obtain ⟨r0, rows', hrowsEq⟩ : ∃ r0 rows', df.rows = r0 :: rows' := by
    cases hr : df.rows with
    | nil => exact absurd hr hrows
    | cons a b => exact ⟨a, b, rfl⟩
  have hrec : df.toRecords =
      (df.cols.map fun c => (c, (alookup c r0).getD Val.nan)) ::
        (rows'.map fun r => df.cols.map fun c => (c, (alookup c r).getD Val.nan)) := by
    simp [DF.toRecords, hrowsEq]
  obtain ⟨er, hmk⟩ := mkEntity_toRecord_err df r0 hmiss
  constructor
  · unfold write_df_to_azure_table_batch
    rw [← Res.bind_assoc]
    rcases preamble_char tn tr s with ⟨sx, heq, evs, hev, hprop⟩ |
      ⟨e, sx, heq, evs, hev, hprop⟩
    · rw [heq, Res.bind_ok, hrec, goWrite_cons_err tn _ [] 0 sx hmk]
      exact ⟨rfl, evs, hev, hprop⟩
    · rw [heq, Res.bind_err]
      exact ⟨rfl, evs, hev, hprop⟩
  · unfold write_df_to_azure_table
    rw [← Res.bind_assoc]
    rcases preamble_char tn tr s with ⟨sx, heq, evs, hev, hprop⟩ |
      ⟨e, sx, heq, evs, hev, hprop⟩
    · rw [heq, Res.bind_ok, hrec, goWriteOne_cons_err tn _ sx hmk]
      exact ⟨rfl, evs, hev, hprop⟩
    · rw [heq, Res.bind_err]
      exact ⟨rfl, evs, hev, hprop⟩

/-- C6 (code bug evidence): the claim says running
`write_df_to_azure_table_batch(table, entities, truncate=True)` twice
leaves exactly one copy of the entities. Because the writer never
splits batches on a partition-key change (the C1 bug), a two-row input
with partition keys "a" and "b" is grouped into one mixed-key batch
whose commit the store rejects: both runs fail, and the table is left
empty — not one copy of the two entities. -/
theorem C6_truncate_write_twice_mixed_keys_leaves_nothing :
    (write_df_to_azure_table_batch "t"
        ⟨["PartitionKey", "RowKey"],
         [[("PartitionKey", .str "a"), ("RowKey", .str "1")],
          [("PartitionKey", .str "b"), ("RowKey", .str "2")]]⟩ true
        ⟨[("t", [])], []⟩ =
      .err .mixedPartitionKeys ⟨[("t", [])], [.scan "t"]⟩) ∧
    (write_df_to_azure_table_batch "t"
        ⟨["PartitionKey", "RowKey"],
         [[("PartitionKey", .str "a"), ("RowKey", .str "1")],
          [("PartitionKey", .str "b"), ("RowKey", .str "2")]]⟩ true
        ⟨[("t", [])], [.scan "t"]⟩ =
      .err .mixedPartitionKeys ⟨[("t", [])], [.scan "t", .scan "t"]⟩) ∧
    getTable [("t", [])] "t" = some [] ∧
    some ([] : List Rec) ≠
      some ((DF.mk ["PartitionKey", "RowKey"]
        [[("PartitionKey", .str "a"), ("RowKey", .str "1")],
         [("PartitionKey", .str "b"), ("RowKey", .str "2")]]).toRecords.map
          builtEnt) := by
  refine ⟨by decide, by decide, by decide, by decide⟩

/-- C7: after `delete_all_rows_batch` on a table whose entities are
well-formed (both keys present, unique key pairs), the call succeeds
and a subsequent full scan of the table returns zero entities; and on
an empty table the call succeeds having committed no batch (its only
event is the scan itself), the store untouched. -/
theorem C7_delete_all_rows_batch_exhaustive (tn : String) (s : St)
    (es : List Rec)
    (hget : getTable s.store tn = some es)
    (hOK : ∀ r ∈ es, entOK r)
    (hND : (es.map entKey?).Nodup) :
    (∃ s', delete_all_rows_batch tn s = .ok () s' ∧
      svcQueryEntities tn s' = .ok [] ⟨s'.store, s'.events ++ [.scan tn]⟩) ∧
    (es = [] →
      delete_all_rows_batch tn s = .ok () ⟨s.store, s.events ++ [.scan tn]⟩) := by
  constructor
  · obtain ⟨s', hrun, hstore⟩ := delete_all_rows_batch_ok hget hOK hND
    refine ⟨s', hrun, ?_⟩
    unfold svcQueryEntities
    rw [hstore]
    simp [getTable_setTable_self]
  · intro he
    subst he
    exact delete_all_rows_batch_empty hget

/-- Witness for C3: a one-row batched write and a one-entity batched
delete, each committing exactly one batch. -/
theorem C3_batch_grouping_exact_witness :
    (getTable [("t", ([] : List Rec))] "t" = some [] ∧
      write_df_to_azure_table_batch "t"
        ⟨["PartitionKey", "RowKey"],
         [[("PartitionKey", .str "a"), ("RowKey", .str "r")]]⟩ false
        ⟨[("t", [])], []⟩ =
        .ok () ⟨[("t", [[("PartitionKey", .str "a"), ("RowKey", .str "r")]])],
          [.commit "t" [.ins [("PartitionKey", .str "a"), ("RowKey", .str "r")]]]⟩ ∧
      getTable [("t", [[("PartitionKey", Val.str "a"), ("RowKey", Val.str "r")]])]
          "t" = some [[("PartitionKey", .str "a"), ("RowKey", .str "r")]] ∧
      delete_all_rows_batch "t"
        ⟨[("t", [[("PartitionKey", .str "a"), ("RowKey", .str "r")]])], []⟩ =
        .ok () ⟨[("t", [])],
          [.scan "t", .commit "t" [.del (.str "a") (.str "r")]]⟩) ∧
    (∃ bs : List (List Op),
      ([Ev.commit "t" [.ins [("PartitionKey", Val.str "a"),
          ("RowKey", Val.str "r")]]] : List Ev) =
        [] ++ bs.map (Ev.commit "t") ∧
      bs.flatten = (DF.mk ["PartitionKey", "RowKey"]
        [[("PartitionKey", .str "a"), ("RowKey", .str "r")]]).toRecords.map
          insOpOf ∧
      ∀ b ∈ bs, b ≠ [] ∧ b.length ≤ 100) ∧
    (∃ bs : List (List Op),
      ([Ev.scan "t", Ev.commit "t" [.del (.str "a") (.str "r")]] : List Ev) =
        [] ++ [Ev.scan "t"] ++ bs.map (Ev.commit "t") ∧
      bs.flatten = ([[("PartitionKey", Val.str "a"), ("RowKey", Val.str "r")]] :
        List Rec).map delOpOf ∧
      ∀ b ∈ bs, b ≠ [] ∧ b.length ≤ 100) :=
  ⟨⟨by decide, by decide, by decide, by decide⟩,
   (C3_batch_grouping_exact "t"
      ⟨["PartitionKey", "RowKey"],
       [[("PartitionKey", .str "a"), ("RowKey", .str "r")]]⟩
      ⟨[("t", [])], []⟩ ()
      ⟨[("t", [[("PartitionKey", .str "a"), ("RowKey", .str "r")]])],
        [.commit "t" [.ins [("PartitionKey", .str "a"), ("RowKey", .str "r")]]]⟩
      [] [[("PartitionKey", .str "a"), ("RowKey", .str "r")]]
      ⟨[("t", [[("PartitionKey", .str "a"), ("RowKey", .str "r")]])], []⟩ ()
      ⟨[("t", [])], [.scan "t", .commit "t" [.del (.str "a") (.str "r")]]⟩).1
     (by decide) (by decide),
   (C3_batch_grouping_exact "t"
      ⟨["PartitionKey", "RowKey"],
       [[("PartitionKey", .str "a"), ("RowKey", .str "r")]]⟩
      ⟨[("t", [])], []⟩ ()
      ⟨[("t", [[("PartitionKey", .str "a"), ("RowKey", .str "r")]])],
        [.commit "t" [.ins [("PartitionKey", .str "a"), ("RowKey", .str "r")]]]⟩
      [] [[("PartitionKey", .str "a"), ("RowKey", .str "r")]]
      ⟨[("t", [[("PartitionKey", .str "a"), ("RowKey", .str "r")]])], []⟩ ()
      ⟨[("t", [])], [.scan "t", .commit "t" [.del (.str "a") (.str "r")]]⟩).2
     (by decide) (by decide)⟩

/-- Witness for C5: a one-row dataframe without a `PartitionKey` column
is rejected by both writers with nothing inserted or committed. -/
theorem C5_missing_keys_rejected_witness :
    ((⟨["RowKey"], [[("RowKey", Val.str "1")]]⟩ : DF).rows ≠ [] ∧
      (hasStr ["RowKey"] "PartitionKey" = false ∨
        hasStr ["RowKey"] "RowKey" = false)) ∧
    ((write_df_to_azure_table_batch "t"
        ⟨["RowKey"], [[("RowKey", .str "1")]]⟩ false
        ⟨[("t", [])], []⟩).isOk = false ∧
      ∃ evs, (write_df_to_azure_table_batch "t"
          ⟨["RowKey"], [[("RowKey", .str "1")]]⟩ false
          ⟨[("t", [])], []⟩).stateOf.events = [] ++ evs ∧
        ∀ ev ∈ evs, ev.isInsert = false ∧
          ∀ tn2 ops, ev = Ev.commit tn2 ops → ∀ o ∈ ops, o.isDel = true) ∧
    ((write_df_to_azure_table "t"
        ⟨["RowKey"], [[("RowKey", .str "1")]]⟩ false
        ⟨[("t", [])], []⟩).isOk = false ∧
      ∃ evs, (write_df_to_azure_table "t"
          ⟨["RowKey"], [[("RowKey", .str "1")]]⟩ false
          ⟨[("t", [])], []⟩).stateOf.events = [] ++ evs ∧
        ∀ ev ∈ evs, ev.isInsert = false ∧
          ∀ tn2 ops, ev = Ev.commit tn2 ops → ∀ o ∈ ops, o.isDel = true) := by
  refine ⟨⟨by decide, by decide⟩, ?_⟩
  exact C5_missing_keys_rejected "t" ⟨["RowKey"], [[("RowKey", .str "1")]]⟩
    false ⟨[("t", [])], []⟩ (by decide) (by decide)

theorem map_update_no_match (l : List Rec) (ne : Rec) (k : Val × Val)
    (h : ∀ r ∈ l, entKey? r ≠ some k) :
    (l.map fun r => if entKey? r = some k then ne else r) = l := by
  rw [List.map_congr_left fun r hr => if_neg (h r hr)]
  exact List.map_id l

theorem map_update_replaces (u v : List Rec) (e ne : Rec) (k : Val × Val)
    (hk : entKey? e = some k)
    (hu : ∀ r ∈ u, entKey? r ≠ some k) (hv : ∀ r ∈ v, entKey? r ≠ some k) :
    ((u ++ e :: v).map fun r => if entKey? r = some k then ne else r) =
      u ++ ne :: v := by
  induction u with
  | nil => simp [hk, map_update_no_match v ne k hv]
  | cons a u' ih =>
    simp only [List.cons_append, List.map_cons,
      if_neg (hu a (List.mem_cons_self _ _))]
    rw [ih (fun r hr => hu r (List.mem_cons_of_mem _ hr))]

theorem svcUpdateEntity_eq_ok {tn : String} {e : Rec} {k : Val × Val} {s : St}
    {t : List Rec} (hget : getTable s.store tn = some t)
    (hk : entKey? e = some k)
    (hmem : ∃ r ∈ t, entKey? r = some k) :
    svcUpdateEntity tn e s = .ok ()
      ⟨setTable s.store tn (t.map fun r => if entKey? r = some k then e else r),
        s.events ++ [.updateOne tn e]⟩ := by
  have hany : (t.any fun r => decide (entKey? r = some k)) = true := by
    rcases hmem with ⟨r, hr, hkr⟩
    exact List.any_eq_true.mpr ⟨r, hr, by simp [hkr]⟩
  unfold svcUpdateEntity
  simp only [hget, hk, hany, if_true]

/-- In a list of uniquely keyed entities, the key of a middle entity
occurs in no other entity. -/
theorem key_unique_of_nodup {done es' : List Rec} {e : Rec} {k : Val × Val}
    (hND : ((done ++ e :: es').map entKey?).Nodup)
    (hkey : entKey? e = some k) :
    (∀ r ∈ done, entKey? r ≠ some k) ∧ (∀ r ∈ es', entKey? r ≠ some k) := by
  rw [List.map_append, List.nodup_append] at hND
  obtain ⟨-, h2, hdisj⟩ := hND
  rw [List.map_cons, List.nodup_cons] at h2
  obtain ⟨hnotmem, -⟩ := h2
  constructor
  · intro r hr hcontra
    have hmem2 : (some k) ∈ (e :: es').map entKey? := by
      rw [← hkey]
      exact List.mem_map_of_mem _ (List.mem_cons_self _ _)
    exact hdisj (hcontra ▸ List.mem_map_of_mem _ hr) hmem2
  · intro r hr hcontra
    refine hnotmem ?_
    rw [hkey, ← hcontra]
    exact List.mem_map_of_mem _ hr

/-- The `copy_column` loop updates exactly the scanned entities that
carry the source column, leaving the rest untouched. -/
theorem goCopyColumn_ok (tn old_column new_column : String)
    (h1 : new_column ≠ "PartitionKey") (h2 : new_column ≠ "RowKey")
    (es : List Rec) :
    ∀ (done : List Rec) (s : St),
      getTable s.store tn = some
        ((done.map fun e => if dictHas e old_column then
          copyColTrans old_column new_column e else e) ++ es) →
      (∀ r ∈ done ++ es, entOK r) →
      ((done ++ es).map entKey?).Nodup →
      ∃ s', goCopyColumn tn old_column new_column es s = .ok () s' ∧
        s'.store = setTable s.store tn
          ((done ++ es).map fun e => if dictHas e old_column then
            copyColTrans old_column new_column e else e) ∧
        s'.events = s.events ++
          (es.filter fun e => dictHas e old_column).map
            (fun e => Ev.updateOne tn (copyColTrans old_column new_column e)) := by
  induction es with
  | nil =>
    intro done s hget hOK hND
    refine ⟨s, rfl, ?_, by simp⟩
    rw [setTable_self s.store tn _ (by simpa using hget)]
  | cons e es' ih =>
    intro done s hget hOK hND
    have hOKe : entOK e := hOK e (List.mem_append_right _ (List.mem_cons_self _ _))
    obtain ⟨p, q, hp, hq, hkey⟩ := entOK_elim hOKe
    have hTransKey : ∀ r : Rec, entKey?
        (if dictHas r old_column then copyColTrans old_column new_column r else r) =
        entKey? r := by
      intro r
      by_cases hc : dictHas r old_column
      · simp only [if_pos hc, copyColTrans]
        exact entKey?_dictSet r new_column _ h1 h2
      · simp [hc]
    obtain ⟨hkeysDone, hkeysRest⟩ := key_unique_of_nodup hND hkey
    have hkeysDone' : ∀ r ∈ (done.map fun e => if dictHas e old_column then
        copyColTrans old_column new_column e else e), entKey? r ≠ some (p, q) := by
      intro r hr
      obtain ⟨d, hd, rfl⟩ := List.mem_map.mp hr
      rw [hTransKey d]
      exact hkeysDone d hd
    have hOK' : ∀ r ∈ (done ++ [e]) ++ es', entOK r := by
      intro r hr
      apply hOK r
      rcases List.mem_append.mp hr with h1' | h2'
      · rcases List.mem_append.mp h1' with h3 | h4
        · exact List.mem_append_left _ h3
        · rw [List.mem_singleton.mp h4]
          exact List.mem_append_right _ (List.mem_cons_self _ _)
      · exact List.mem_append_right _ (List.mem_cons_of_mem _ h2')
    have hND' : (((done ++ [e]) ++ es').map entKey?).Nodup := by
      simpa using hND
    by_cases hce : dictHas e old_column
    · have hupd := svcUpdateEntity_eq_ok
        (e := copyColTrans old_column new_column e) (k := (p, q)) hget
        (by
          simp only [copyColTrans]
          rw [entKey?_dictSet e new_column _ h1 h2]
          exact hkey)
        ⟨e, List.mem_append_right _ (List.mem_cons_self _ _), hkey⟩
      have hrepl := map_update_replaces
        (done.map fun e => if dictHas e old_column then
          copyColTrans old_column new_column e else e) es' e
        (copyColTrans old_column new_column e) (p, q) hkey hkeysDone' hkeysRest
      have hget2 : getTable (setTable s.store tn
          (((done.map fun e => if dictHas e old_column then
            copyColTrans old_column new_column e else e) ++ e :: es').map
              fun r => if entKey? r = some (p, q) then
                copyColTrans old_column new_column e else r)) tn =
          some (((done ++ [e]).map fun e => if dictHas e old_column then
            copyColTrans old_column new_column e else e) ++ es') := by
        rw [getTable_setTable_self, hrepl]
        simp [hce]
      obtain ⟨s', hrun, hstore, hev⟩ := ih (done ++ [e])
        ⟨setTable s.store tn _, s.events ++
          [.updateOne tn (copyColTrans old_column new_column e)]⟩
        hget2 hOK' hND'
      refine ⟨s', ?_, ?_, ?_⟩
      · rw [goCopyColumn, if_pos hce]
        have hval : dictSet e new_column ((alookup old_column e).getD Val.nan) =
            copyColTrans old_column new_column e := rfl
        rw [hval, hupd, Res.bind_ok]
        exact hrun
      · rw [hstore, setTable_setTable]
        congr 1
        simp [hce]
      · rw [hev]
        simp [hce]
    · rw [goCopyColumn, if_neg hce]
      obtain ⟨s', hrun, hstore, hev⟩ := ih (done ++ [e]) s
        (by
          rw [hget]
          congr 1
          simp [hce]) hOK' hND'
      refine ⟨s', hrun, ?_, ?_⟩
      · rw [hstore]
        congr 1
        simp [hce]
      · rw [hev]
        simp [hce]

/-- The `delete_column` loop updates exactly the scanned entities that
carry the column, leaving the rest untouched. -/
theorem goDeleteColumn_ok (tn column_name : String)
    (h1 : column_name ≠ "PartitionKey") (h2 : column_name ≠ "RowKey")
    (es : List Rec) :
    ∀ (done : List Rec) (s : St),
      getTable s.store tn = some
        ((done.map fun e => if dictHas e column_name then
          dictErase column_name e else e) ++ es) →
      (∀ r ∈ done ++ es, entOK r) →
      ((done ++ es).map entKey?).Nodup →
      ∃ s', goDeleteColumn tn column_name es s = .ok () s' ∧
        s'.store = setTable s.store tn
          ((done ++ es).map fun e => if dictHas e column_name then
            dictErase column_name e else e) ∧
        s'.events = s.events ++
          (es.filter fun e => dictHas e column_name).map
            (fun e => Ev.updateOne tn (dictErase column_name e)) := by
  induction es with
  | nil =>
    intro done s hget hOK hND
    refine ⟨s, rfl, ?_, by simp⟩
    rw [setTable_self s.store tn _ (by simpa using hget)]
  | cons e es' ih =>
    intro done s hget hOK hND
    have hOKe : entOK e := hOK e (List.mem_append_right _ (List.mem_cons_self _ _))
    obtain ⟨p, q, hp, hq, hkey⟩ := entOK_elim hOKe
    have hTransKey : ∀ r : Rec, entKey?
        (if dictHas r column_name then dictErase column_name r else r) =
        entKey? r := by
      intro r
      by_cases hc : dictHas r column_name
      · simp only [if_pos hc]
        exact entKey?_dictErase r column_name h1 h2
      · simp [hc]
    obtain ⟨hkeysDone, hkeysRest⟩ := key_unique_of_nodup hND hkey
    have hkeysDone' : ∀ r ∈ (done.map fun e => if dictHas e column_name then
        dictErase column_name e else e), entKey? r ≠ some (p, q) := by
      intro r hr
      obtain ⟨d, hd, rfl⟩ := List.mem_map.mp hr
      rw [hTransKey d]
      exact hkeysDone d hd
    have hOK' : ∀ r ∈ (done ++ [e]) ++ es', entOK r := by
      intro r hr
      apply hOK r
      rcases List.mem_append.mp hr with h1' | h2'
      · rcases List.mem_append.mp h1' with h3 | h4
        · exact List.mem_append_left _ h3
        · rw [List.mem_singleton.mp h4]
          exact List.mem_append_right _ (List.mem_cons_self _ _)
      · exact List.mem_append_right _ (List.mem_cons_of_mem _ h2')
    have hND' : (((done ++ [e]) ++ es').map entKey?).Nodup := by
      simpa using hND
    by_cases hce : dictHas e column_name
    · have hupd := svcUpdateEntity_eq_ok
        (e := dictErase column_name e) (k := (p, q)) hget
        (by
          rw [entKey?_dictErase e column_name h1 h2]
          exact hkey)
        ⟨e, List.mem_append_right _ (List.mem_cons_self _ _), hkey⟩
      have hrepl := map_update_replaces
        (done.map fun e => if dictHas e column_name then
          dictErase column_name e else e) es' e
        (dictErase column_name e) (p, q) hkey hkeysDone' hkeysRest
      have hget2 : getTable (setTable s.store tn
          (((done.map fun e => if dictHas e column_name then
            dictErase column_name e else e) ++ e :: es').map
              fun r => if entKey? r = some (p, q) then
                dictErase column_name e else r)) tn =
          some (((done ++ [e]).map fun e => if dictHas e column_name then
            dictErase column_name e else e) ++ es') := by
        rw [getTable_setTable_self, hrepl]
        simp [hce]
      obtain ⟨s', hrun, hstore, hev⟩ := ih (done ++ [e])
        ⟨setTable s.store tn _, s.events ++
          [.updateOne tn (dictErase column_name e)]⟩
        hget2 hOK' hND'
      refine ⟨s', ?_, ?_, ?_⟩
      · rw [goDeleteColumn, if_pos hce, hupd, Res.bind_ok]
        exact hrun
      · rw [hstore, setTable_setTable]
        congr 1
        simp [hce]
      · rw [hev]
        simp [hce]
    · rw [goDeleteColumn, if_neg hce]
      obtain ⟨s', hrun, hstore, hev⟩ := ih (done ++ [e]) s
        (by
          rw [hget]
          congr 1
          simp [hce]) hOK' hND'
      refine ⟨s', hrun, ?_, ?_⟩
      · rw [hstore]
        congr 1
        simp [hce]
      · rw [hev]
        simp [hce]

/-! ## Decimal rendering and zero-padding lemmas (for `add_keys_to_df`) -/

theorem numLen_pos (n : Nat) : 1 ≤ numLen n := by
  unfold numLen
  split <;> omega

theorem lt_pow_numLen (n : Nat) : n < 10 ^ numLen n := by
  induction n using Nat.strong_induction_on with
  | _ n ih =>
    unfold numLen
    split
    next h => simpa using h
    next h =>
      have hd := ih (n / 10) (Nat.div_lt_self (by omega) (by omega))
      have key : n < 10 * 10 ^ numLen (n / 10) := by omega
      calc n < 10 * 10 ^ numLen (n / 10) := key
        _ = 10 ^ (numLen (n / 10) + 1) := by rw [pow_succ]; ring

theorem numLen_le_of_lt_pow : ∀ n w, 1 ≤ w → n < 10 ^ w → numLen n ≤ w := by
  intro n
  induction n using Nat.strong_induction_on with
  | _ n ih =>
    intro w hw hlt
    unfold numLen
    split
    next => omega
    next h =>
      have hw2 : 2 ≤ w := by
        by_contra hc
        have hw1 : w = 1 := by omega
        subst hw1
        simp at hlt
        omega
      have hpow : (10 : Nat) ^ w = 10 * 10 ^ (w - 1) := by
        conv_lhs => rw [show w = (w - 1) + 1 by omega]
        rw [pow_succ]
        ring
      rw [hpow] at hlt
      have hrec := ih (n / 10) (Nat.div_lt_self (by omega) (by omega)) (w - 1)
        (by omega) (by omega)
      omega

theorem numLen_mono {n m : Nat} (h : n ≤ m) : numLen n ≤ numLen m :=
  numLen_le_of_lt_pow n (numLen m) (numLen_pos m)
    (lt_of_le_of_lt h (lt_pow_numLen m))

theorem padDigits_length : ∀ w n, (padDigits w n).length = w := by
  intro w
  induction w with
  | zero => intro n; rfl
  | succ w ih => intro n; simp [padDigits, ih]

theorem padDigits_digits : ∀ w n, n < 10 ^ w → ∀ d ∈ padDigits w n, d < 10 := by
  intro w
  induction w with
  | zero => intro n h d hd; simp [padDigits] at hd
  | succ w ih =>
    intro n h d hd
    rw [padDigits] at hd
    rcases List.mem_cons.mp hd with rfl | hd2
    · apply Nat.div_lt_of_lt_mul
      have : (10 : Nat) ^ (w + 1) = 10 ^ w * 10 := pow_succ 10 w
      omega
    · exact ih (n % 10 ^ w) (Nat.mod_lt _ (by positivity)) d hd2

theorem padDigits_replicate : ∀ k w n, n < 10 ^ w →
    padDigits (k + w) n = List.replicate k 0 ++ padDigits w n := by
  intro k
  induction k with
  | zero => intro w n h; simp
  | succ k ih =>
    intro w n h
    have hle : (10 : Nat) ^ w ≤ 10 ^ (k + w) :=
      Nat.pow_le_pow_right (by omega) (by omega)
    have h1 : n / 10 ^ (k + w) = 0 := Nat.div_eq_of_lt (by omega)
    have h2 : n % 10 ^ (k + w) = n := Nat.mod_eq_of_lt (by omega)
    rw [show k + 1 + w = (k + w) + 1 by omega, padDigits, h1, h2, ih w n h]
    simp [List.replicate_succ]

theorem padDigits_snoc : ∀ w n, n < 10 ^ (w + 1) →
    padDigits (w + 1) n = padDigits w (n / 10) ++ [n % 10] := by
  intro w
  induction w with
  | zero =>
    intro n h
    have h10 : n < 10 := by simpa using h
    simp [padDigits]
    omega
  | succ w ih =>
    intro n h
    conv_lhs => rw [padDigits]
    rw [ih (n % 10 ^ (w + 1)) (Nat.mod_lt _ (by positivity))]
    conv_rhs => rw [padDigits]
    have e1 : n / 10 ^ (w + 1) = n / 10 / 10 ^ w := by
      rw [Nat.div_div_eq_div_mul]
      congr 1
      rw [pow_succ]
      ring
    have e2 : n % 10 ^ (w + 1) / 10 = n / 10 % 10 ^ w := by
      rw [show (10 : Nat) ^ (w + 1) = 10 * 10 ^ w by rw [pow_succ]; ring]
      exact Nat.mod_mul_right_div_self n 10 (10 ^ w)
    have e3 : n % 10 ^ (w + 1) % 10 = n % 10 :=
      Nat.mod_mod_of_dvd n (dvd_pow_self 10 (by omega))
    rw [e1, e2, e3]
    simp

theorem pyStrNatAux_eq : ∀ fuel n, n < fuel →
    pyStrNatAux fuel n = (padDigits (numLen n) n).map Nat.digitChar := by
  intro fuel
  induction fuel with
  | zero => intro n h; omega
  | succ fuel ih =>
    intro n h
    rw [pyStrNatAux]
    by_cases h10 : n < 10
    · rw [if_pos h10, show numLen n = 1 by unfold numLen; rw [if_pos h10]]
      simp [padDigits]
    · rw [if_neg h10, ih (n / 10) (by omega),
        show numLen n = numLen (n / 10) + 1 by
          conv_lhs => unfold numLen
          rw [if_neg h10],
        padDigits_snoc (numLen (n / 10)) n
          (by
            have := lt_pow_numLen n
            rw [show numLen n = numLen (n / 10) + 1 by
              conv_lhs => unfold numLen
              rw [if_neg h10]] at this
            exact this)]
      simp

theorem pyStrNat_eq (n : Nat) :
    pyStrNat n = (padDigits (numLen n) n).map Nat.digitChar :=
  pyStrNatAux_eq (n + 1) n (by omega)

theorem pyStrNat_length (n : Nat) : (pyStrNat n).length = numLen n := by
  rw [pyStrNat_eq]
  simp [padDigits_length]

theorem zfill_pyStrNat {w n : Nat} (hw : numLen n ≤ w) :
    zfillChars w (pyStrNat n) = (padDigits w n).map Nat.digitChar := by
  unfold zfillChars
  rw [pyStrNat_length, pyStrNat_eq]
  conv_rhs => rw [show w = (w - numLen n) + numLen n from by omega,
    padDigits_replicate (w - numLen n) (numLen n) n (lt_pow_numLen n)]
  simp [List.map_replicate, Nat.digitChar]

theorem padDigits_lex : ∀ w n m, n < m → m < 10 ^ w →
    List.Lex (· < ·) (padDigits w n) (padDigits w m) := by
  intro w
  induction w with
  | zero =>
    intro n m h1 h2
    simp at h2
    omega
  | succ w ih =>
    intro n m h1 h2
    rw [padDigits, padDigits]
    rcases Nat.lt_or_ge (n / 10 ^ w) (m / 10 ^ w) with hq | hq
    · exact List.Lex.rel hq
    · have hle : n / 10 ^ w ≤ m / 10 ^ w :=
        Nat.div_le_div_right (le_of_lt h1)
      have hq2 : n / 10 ^ w = m / 10 ^ w := by omega
      rw [hq2]
      apply List.Lex.cons
      apply ih
      · have e1 := Nat.div_add_mod n (10 ^ w)
        have e2 := Nat.div_add_mod m (10 ^ w)
        rw [hq2] at e1
        omega
      · exact Nat.mod_lt _ (by positivity)

theorem digitChar_lt {a b : Nat} (h1 : a < b) (h2 : b < 10) :
    Nat.digitChar a < Nat.digitChar b := by
  have key : ∀ x : Fin 10, ∀ y : Fin 10, x.val < y.val →
      Nat.digitChar x.val < Nat.digitChar y.val := by decide
  exact key ⟨a, by omega⟩ ⟨b, h2⟩ h1

theorem map_digitChar_lex {l1 l2 : List Nat}
    (h : List.Lex (· < ·) l1 l2) (hd : ∀ d ∈ l2, d < 10) :
    List.Lex (· < ·) (l1.map Nat.digitChar) (l2.map Nat.digitChar) := by
  induction h with
  | nil => exact List.Lex.nil
  | rel hab =>
    exact List.Lex.rel (digitChar_lt hab (hd _ (List.mem_cons_self _ _)))
  | cons h2 ih =>
    exact List.Lex.cons (ih fun d hdm => hd d (List.mem_cons_of_mem _ hdm))

theorem lex_append_left {r : Char → Char → Prop} :
    ∀ (l t1 t2 : List Char), List.Lex r t1 t2 →
      List.Lex r (l ++ t1) (l ++ t2) := by
  intro l
  induction l with
  | nil => intro t1 t2 h; exact h
  | cons c cs ih => intro t1 t2 h; exact List.Lex.cons (ih t1 t2 h)

theorem string_lt_of_data_lex {s t : String}
    (h : List.Lex (· < ·) s.data t.data) : s < t := by
  rw [String.lt_iff_toList_lt]
  exact h

theorem add_keys_rows_length (df : DF) (P : String) :
    (add_keys_to_df df P).rows.length = df.rows.length := by
  simp [add_keys_to_df, DF.setCol, DF.colVals]

/-- Closed form of row `i` of `add_keys_to_df`: the original row with
`PartitionKey` set, then `RowKey` set to the zero-padded index, then
`RowKey` overwritten with the concatenated key. -/
theorem add_keys_rows_get (df : DF) (P : String) (i : Nat)
    (hi : i < df.rows.length) :
    (add_keys_to_df df P).rows.getD i [] =
      dictSet (dictSet (dictSet (df.rows.getD i []) "PartitionKey" (.str P))
        "RowKey" (.str ⟨zfillChars (pyStrNat df.rows.length).length (pyStrNat i)⟩))
        "RowKey" (.str ((P ++ "-") ++
          ⟨zfillChars (pyStrNat df.rows.length).length (pyStrNat i)⟩)) := by
  rw [List.getD_eq_getElem _ _ (by rw [add_keys_rows_length]; exact hi),
      List.getD_eq_getElem _ _ hi]
  simp only [add_keys_to_df, DF.setCol, DF.colVals]
  simp [List.getElem_zipWith, List.getElem_map, List.getElem_range,
    alookup_dictSet_self,
    alookup_dictSet_ne _ _ _ _ (by decide : ("PartitionKey" : String) ≠ "RowKey"),
    valStrAdd]

/-- C4: `add_keys_to_df` is deterministic (equal inputs give equal
outputs), sets `PartitionKey` to the given value on every row, sets the
`RowKey` of row `i` to `partition_key + "-" + str(i).zfill(len(str(N)))`
where `N` is the row count, and the resulting row keys are strictly
increasing in the lexicographic string order as the row index grows. -/
theorem C4_add_keys_to_df (df : DF) (partition_key : String) :
    ((add_keys_to_df df partition_key).rows.length = df.rows.length) ∧
    (∀ df2 pk2, df = df2 → partition_key = pk2 →
      add_keys_to_df df partition_key = add_keys_to_df df2 pk2) ∧
    (∀ i, i < df.rows.length →
      alookup "PartitionKey" ((add_keys_to_df df partition_key).rows.getD i []) =
        some (.str partition_key)) ∧
    (∀ i, i < df.rows.length →
      alookup "RowKey" ((add_keys_to_df df partition_key).rows.getD i []) =
        some (.str ((partition_key ++ "-") ++
          ⟨zfillChars (pyStrNat df.rows.length).length (pyStrNat i)⟩))) ∧
    (∀ i j, i < j → j < df.rows.length → ∀ si sj,
      alookup "RowKey" ((add_keys_to_df df partition_key).rows.getD i []) =
        some (.str si) →
      alookup "RowKey" ((add_keys_to_df df partition_key).rows.getD j []) =
        some (.str sj) →
      si < sj) := by
  have hrkval : ∀ i, i < df.rows.length →
      alookup "RowKey" ((add_keys_to_df df partition_key).rows.getD i []) =
        some (.str ((partition_key ++ "-") ++
          ⟨zfillChars (pyStrNat df.rows.length).length (pyStrNat i)⟩)) := by
    intro i hi
    rw [add_keys_rows_get df partition_key i hi, alookup_dictSet_self]
  refine ⟨add_keys_rows_length df partition_key, ?_, ?_, hrkval, ?_⟩
  · intro df2 pk2 h1 h2
    subst h1
    subst h2
    rfl
  · intro i hi
    rw [add_keys_rows_get df partition_key i hi,
      alookup_dictSet_ne _ _ _ _ (by decide),
      alookup_dictSet_ne _ _ _ _ (by decide), alookup_dictSet_self]
  · intro i j hij hj si sj hsi hsj
    rw [hrkval i (lt_trans hij hj)] at hsi
    rw [hrkval j hj] at hsj
    have hsi2 : si = (partition_key ++ "-") ++
        ⟨zfillChars (pyStrNat df.rows.length).length (pyStrNat i)⟩ := by
      cases hsi
      rfl
    have hsj2 : sj = (partition_key ++ "-") ++
        ⟨zfillChars (pyStrNat df.rows.length).length (pyStrNat j)⟩ := by
      cases hsj
      rfl
    subst hsi2
    subst hsj2
    apply string_lt_of_data_lex
    rw [String.data_append, String.data_append]
    apply lex_append_left
    have hw : (pyStrNat df.rows.length).length = numLen df.rows.length :=
      pyStrNat_length _
    have hjpow : j < 10 ^ (pyStrNat df.rows.length).length := by
      rw [hw]
      exact lt_trans hj (lt_pow_numLen _)
    show List.Lex (· < ·)
      (zfillChars (pyStrNat df.rows.length).length (pyStrNat i))
      (zfillChars (pyStrNat df.rows.length).length (pyStrNat j))
    rw [zfill_pyStrNat (by rw [hw]; exact numLen_mono (by omega)),
        zfill_pyStrNat (by rw [hw]; exact numLen_mono (by omega))]
    exact map_digitChar_lex
      (padDigits_lex (pyStrNat df.rows.length).length i j hij hjpow)
      (padDigits_digits _ j hjpow)

/-- Witness for C4 on a two-row dataframe with partition value "p":
keys "p-0" and "p-1", in lexicographic order. -/
theorem C4_add_keys_to_df_witness :
    ((0 : Nat) < 1 ∧ 1 < (⟨[], [[], []]⟩ : DF).rows.length ∧
      0 < (⟨[], [[], []]⟩ : DF).rows.length) ∧
    alookup "PartitionKey" ((add_keys_to_df ⟨[], [[], []]⟩ "p").rows.getD 0 []) =
      some (.str "p") ∧
    alookup "RowKey" ((add_keys_to_df ⟨[], [[], []]⟩ "p").rows.getD 0 []) =
      some (.str "p-0") ∧
    alookup "RowKey" ((add_keys_to_df ⟨[], [[], []]⟩ "p").rows.getD 1 []) =
      some (.str "p-1") ∧
    ("p-0" : String) < "p-1" := by
  obtain ⟨hlen, hdet, hpk, hrk, hsort⟩ := C4_add_keys_to_df ⟨[], [[], []]⟩ "p"
  have h0 := hrk 0 (by decide)
  have h1 := hrk 1 (by decide)
  rw [show (Val.str (("p" ++ "-") ++
      ⟨zfillChars (pyStrNat (⟨[], [[], []]⟩ : DF).rows.length).length
        (pyStrNat 0)⟩)) = Val.str "p-0" from by decide] at h0
  rw [show (Val.str (("p" ++ "-") ++
      ⟨zfillChars (pyStrNat (⟨[], [[], []]⟩ : DF).rows.length).length
        (pyStrNat 1)⟩)) = Val.str "p-1" from by decide] at h1
  exact ⟨⟨by decide, by decide, by decide⟩, hpk 0 (by decide), h0, h1,
    hsort 0 1 (by decide) (by decide) "p-0" "p-1" h0 h1⟩

/-- C8: on a table where only a subset of the entities carry the target
column, `copy_column` and `delete_column` issue an update for exactly
that subset — `copy_column` setting the destination column to the
source column's value, `delete_column` removing only the named key —
and every entity lacking the column is left byte-identical in place,
with no update issued for it. -/
theorem C8_column_ops_touch_exact_subset (tn : String)
    (old_column new_column column_name : String) (s sD : St)
    (es esD : List Rec)
    (hget : getTable s.store tn = some es)
    (hOK : ∀ r ∈ es, entOK r) (hND : (es.map entKey?).Nodup)
    (h1 : new_column ≠ "PartitionKey") (h2 : new_column ≠ "RowKey")
    (hgetD : getTable sD.store tn = some esD)
    (hOKD : ∀ r ∈ esD, entOK r) (hNDD : (esD.map entKey?).Nodup)
    (h1D : column_name ≠ "PartitionKey") (h2D : column_name ≠ "RowKey") :
    (∃ s', copy_column tn old_column new_column s = .ok () s' ∧
      s'.store = setTable s.store tn (es.map fun e =>
        if dictHas e old_column then copyColTrans old_column new_column e else e) ∧
      s'.events = s.events ++ [.scan tn] ++
        (es.filter fun e => dictHas e old_column).map
          (fun e => Ev.updateOne tn (copyColTrans old_column new_column e)) ∧
      ∀ e : Rec, dictHas e old_column →
        alookup new_column (copyColTrans old_column new_column e) =
          some ((alookup old_column e).getD Val.nan)) ∧
    (∃ s', delete_column tn column_name sD = .ok () s' ∧
      s'.store = setTable sD.store tn (esD.map fun e =>
        if dictHas e column_name then dictErase column_name e else e) ∧
      s'.events = sD.events ++ [.scan tn] ++
        (esD.filter fun e => dictHas e column_name).map
          (fun e => Ev.updateOne tn (dictErase column_name e)) ∧
      ∀ e : Rec, alookup column_name (dictErase column_name e) = none ∧
        ∀ k, k ≠ column_name → alookup k (dictErase column_name e) = alookup k e) := by
  constructor
  · obtain ⟨s', hrun, hstore, hev⟩ := goCopyColumn_ok tn old_column new_column
      h1 h2 es [] ⟨s.store, s.events ++ [.scan tn]⟩
      (by simpa using hget) (by simpa using hOK) (by simpa using hND)
    refine ⟨s', ?_, by simpa using hstore, by simpa using hev, ?_⟩
    · unfold copy_column svcQueryEntities
      simp only [hget, Res.bind_ok]
      exact hrun
    · intro e _
      exact alookup_dictSet_self e new_column _
  · obtain ⟨s', hrun, hstore, hev⟩ := goDeleteColumn_ok tn column_name
      h1D h2D esD [] ⟨sD.store, sD.events ++ [.scan tn]⟩
      (by simpa using hgetD) (by simpa using hOKD) (by simpa using hNDD)
    refine ⟨s', ?_, by simpa using hstore, by simpa using hev, ?_⟩
    · unfold delete_column svcQueryEntities
      simp only [hgetD, Res.bind_ok]
      exact hrun
    · intro e
      exact ⟨alookup_dictErase_self e column_name,
        fun k hk => alookup_dictErase_ne e column_name k hk⟩

/-- Witness for C8: a two-entity table where only the first entity has
column "c": `copy_column` "c"→"d" and `delete_column` "c" each update
only that entity. -/
theorem C8_column_ops_touch_exact_subset_witness :
    (getTable [("t",
        [[("PartitionKey", Val.str "a"), ("RowKey", Val.str "1"),
          ("c", Val.int 7)],
         [("PartitionKey", Val.str "a"), ("RowKey", Val.str "2")]])] "t" =
      some [[("PartitionKey", Val.str "a"), ("RowKey", Val.str "1"),
          ("c", Val.int 7)],
         [("PartitionKey", Val.str "a"), ("RowKey", Val.str "2")]] ∧
      ("d" : String) ≠ "PartitionKey" ∧ ("d" : String) ≠ "RowKey" ∧
      ("c" : String) ≠ "PartitionKey" ∧ ("c" : String) ≠ "RowKey") ∧
    (∃ s', copy_column "t" "c" "d"
        ⟨[("t",
          [[("PartitionKey", Val.str "a"), ("RowKey", Val.str "1"),
            ("c", Val.int 7)],
           [("PartitionKey", Val.str "a"), ("RowKey", Val.str "2")]])], []⟩ =
        .ok () s' ∧
      s'.store = setTable [("t",
          [[("PartitionKey", Val.str "a"), ("RowKey", Val.str "1"),
            ("c", Val.int 7)],
           [("PartitionKey", Val.str "a"), ("RowKey", Val.str "2")]])] "t"
        (([[("PartitionKey", Val.str "a"), ("RowKey", Val.str "1"),
            ("c", Val.int 7)],
           [("PartitionKey", Val.str "a"), ("RowKey", Val.str "2")]] :
          List Rec).map fun e =>
            if dictHas e "c" then copyColTrans "c" "d" e else e) ∧
      s'.events = [] ++ [.scan "t"] ++
        (([[("PartitionKey", Val.str "a"), ("RowKey", Val.str "1"),
            ("c", Val.int 7)],
           [("PartitionKey", Val.str "a"), ("RowKey", Val.str "2")]] :
          List Rec).filter fun e => dictHas e "c").map
            (fun e => Ev.updateOne "t" (copyColTrans "c" "d" e)) ∧
      ∀ e : Rec, dictHas e "c" →
        alookup "d" (copyColTrans "c" "d" e) =
          some ((alookup "c" e).getD Val.nan)) ∧
    (∃ s', delete_column "t" "c"
        ⟨[("t",
          [[("PartitionKey", Val.str "a"), ("RowKey", Val.str "1"),
            ("c", Val.int 7)],
           [("PartitionKey", Val.str "a"), ("RowKey", Val.str "2")]])], []⟩ =
        .ok () s' ∧
      s'.store = setTable [("t",
          [[("PartitionKey", Val.str "a"), ("RowKey", Val.str "1"),
            ("c", Val.int 7)],
           [("PartitionKey", Val.str "a"), ("RowKey", Val.str "2")]])] "t"
        (([[("PartitionKey", Val.str "a"), ("RowKey", Val.str "1"),
            ("c", Val.int 7)],
           [("PartitionKey", Val.str "a"), ("RowKey", Val.str "2")]] :
          List Rec).map fun e =>
            if dictHas e "c" then dictErase "c" e else e) ∧
      s'.events = [] ++ [.scan "t"] ++
        (([[("PartitionKey", Val.str "a"), ("RowKey", Val.str "1"),
            ("c", Val.int 7)],
           [("PartitionKey", Val.str "a"), ("RowKey", Val.str "2")]] :
          List Rec).filter fun e => dictHas e "c").map
            (fun e => Ev.updateOne "t" (dictErase "c" e)) ∧
      ∀ e : Rec, alookup "c" (dictErase "c" e) = none ∧
        ∀ k, k ≠ "c" → alookup k (dictErase "c" e) = alookup k e) := by
  refine ⟨⟨by decide, by decide, by decide, by decide, by decide⟩, ?_, ?_⟩
  · exact (C8_column_ops_touch_exact_subset "t" "c" "d" "c"
      ⟨[("t",
        [[("PartitionKey", Val.str "a"), ("RowKey", Val.str "1"),
          ("c", Val.int 7)],
         [("PartitionKey", Val.str "a"), ("RowKey", Val.str "2")]])], []⟩
      ⟨[("t",
        [[("PartitionKey", Val.str "a"), ("RowKey", Val.str "1"),
          ("c", Val.int 7)],
         [("PartitionKey", Val.str "a"), ("RowKey", Val.str "2")]])], []⟩
      [[("PartitionKey", Val.str "a"), ("RowKey", Val.str "1"),
          ("c", Val.int 7)],
         [("PartitionKey", Val.str "a"), ("RowKey", Val.str "2")]]
      [[("PartitionKey", Val.str "a"), ("RowKey", Val.str "1"),
          ("c", Val.int 7)],
         [("PartitionKey", Val.str "a"), ("RowKey", Val.str "2")]]
      (by decide) (by decide) (by decide) (by decide) (by decide)
      (by decide) (by decide) (by decide) (by decide) (by decide)).1
  · exact (C8_column_ops_touch_exact_subset "t" "c" "d" "c"
      ⟨[("t",
        [[("PartitionKey", Val.str "a"), ("RowKey", Val.str "1"),
          ("c", Val.int 7)],
         [("PartitionKey", Val.str "a"), ("RowKey", Val.str "2")]])], []⟩
      ⟨[("t",
        [[("PartitionKey", Val.str "a"), ("RowKey", Val.str "1"),
          ("c", Val.int 7)],
         [("PartitionKey", Val.str "a"), ("RowKey", Val.str "2")]])], []⟩
      [[("PartitionKey", Val.str "a"), ("RowKey", Val.str "1"),
          ("c", Val.int 7)],
         [("PartitionKey", Val.str "a"), ("RowKey", Val.str "2")]]
      [[("PartitionKey", Val.str "a"), ("RowKey", Val.str "1"),
          ("c", Val.int 7)],
         [("PartitionKey", Val.str "a"), ("RowKey", Val.str "2")]]
      (by decide) (by decide) (by decide) (by decide) (by decide)
      (by decide) (by decide) (by decide) (by decide) (by decide)).2

/-! ## Lemmas about column-label lists and dataframe construction -/

theorem hasStr_append (l1 l2 : List String) (k : String) :
    hasStr (l1 ++ l2) k = (hasStr l1 k || hasStr l2 k) := by
  induction l1 with
  | nil => simp [hasStr]
  | cons x rest ih =>
    by_cases hx : x = k
    · simp [hasStr, hx]
    · simp [hasStr, hx, ih]

theorem hasStr_iff_mem {l : List String} {k : String} :
    hasStr l k = true ↔ k ∈ l := by
  induction l with
  | nil => simp [hasStr]
  | cons x rest ih =>
    by_cases hx : x = k
    · simp [hasStr, hx]
    · simp [hasStr, hx, ih, Ne.symm hx]

/-- One inner fold of `unionKeys` (over the bindings of a single
record) preserves already-present labels. -/
theorem innerFold_mono (r : Rec) (k : String) :
    ∀ acc : List String, hasStr acc k = true →
      hasStr (r.foldl (fun acc2 kv =>
        if hasStr acc2 kv.1 then acc2 else acc2 ++ [kv.1]) acc) k = true := by
  induction r with
  | nil => intro acc h; exact h
  | cons kv rest ih =>
    intro acc h
    simp only [List.foldl_cons]
    by_cases hc : hasStr acc kv.1
    · rw [if_pos hc]
      exact ih acc h
    · rw [if_neg hc]
      exact ih _ (by rw [hasStr_append]; simp [h])

/-- The inner fold of `unionKeys` records every key of the record. -/
theorem innerFold_insert (r : Rec) (k : String) (hk : dictHas r k = true) :
    ∀ acc : List String,
      hasStr (r.foldl (fun acc2 kv =>
        if hasStr acc2 kv.1 then acc2 else acc2 ++ [kv.1]) acc) k = true := by
  induction r with
  | nil => simp [dictHas, alookup] at hk
  | cons kv rest ih =>
    intro acc
    simp only [List.foldl_cons]
    by_cases hkv : kv.1 = k
    · subst hkv
      by_cases hc : hasStr acc kv.1
      · rw [if_pos hc]
        exact innerFold_mono rest kv.1 acc hc
      · rw [if_neg hc]
        exact innerFold_mono rest kv.1 _ (by rw [hasStr_append]; simp [hasStr])
    · have hk2 : dictHas rest k = true := by
        simpa [dictHas, alookup, hkv] using hk
      by_cases hc : hasStr acc kv.1
      · rw [if_pos hc]
        exact ih hk2 acc
      · rw [if_neg hc]
        exact ih hk2 _

theorem outerFold_mono (rs : List Rec) (k : String) :
    ∀ acc : List String, hasStr acc k = true →
      hasStr (rs.foldl (fun acc r => r.foldl (fun acc2 kv =>
        if hasStr acc2 kv.1 then acc2 else acc2 ++ [kv.1]) acc) acc) k = true := by
  induction rs with
  | nil => intro acc h; exact h
  | cons r rest ih =>
    intro acc h
    simp only [List.foldl_cons]
    exact ih _ (innerFold_mono r k acc h)

theorem outerFold_insert (k : String) :
    ∀ (rs : List Rec) (r : Rec), r ∈ rs → dictHas r k = true →
    ∀ acc : List String,
      hasStr (rs.foldl (fun acc r => r.foldl (fun acc2 kv =>
        if hasStr acc2 kv.1 then acc2 else acc2 ++ [kv.1]) acc) acc) k = true := by
  intro rs
  induction rs with
  | nil => intro r hr; cases hr
  | cons r0 rest ih =>
    intro r hr hk acc
    simp only [List.foldl_cons]
    rcases List.mem_cons.mp hr with rfl | hr2
    · exact outerFold_mono rest k _ (innerFold_insert r k hk acc)
    · exact ih r hr2 hk _

/-- A key carried by any scanned record appears among the inferred
dataframe columns. -/
theorem hasStr_unionKeys {rs : List Rec} {k : String}
    (h : ∃ r ∈ rs, dictHas r k = true) : hasStr (unionKeys rs) k = true := by
  obtain ⟨r, hr, hk⟩ := h
  exact outerFold_insert k rs r hr hk []

theorem unionKeys_empty : unionKeys [] = [] := rfl

theorem innerFold_nodup (r : Rec) :
    ∀ acc : List String, acc.Nodup →
      (r.foldl (fun acc2 kv =>
        if hasStr acc2 kv.1 then acc2 else acc2 ++ [kv.1]) acc).Nodup := by
  induction r with
  | nil => intro acc h; exact h
  | cons kv rest ih =>
    intro acc h
    simp only [List.foldl_cons]
    by_cases hc : hasStr acc kv.1
    · rw [if_pos hc]
      exact ih acc h
    · rw [if_neg hc]
      refine ih _ ?_
      rw [List.nodup_append]
      refine ⟨h, List.nodup_singleton _, ?_⟩
      intro a ha hb
      rw [List.mem_singleton.mp hb] at ha
      exact hc (hasStr_iff_mem.mpr ha)

theorem outerFold_nodup (rs : List Rec) :
    ∀ acc : List String, acc.Nodup →
      (rs.foldl (fun acc r => r.foldl (fun acc2 kv =>
        if hasStr acc2 kv.1 then acc2 else acc2 ++ [kv.1]) acc) acc).Nodup := by
  induction rs with
  | nil => intro acc h; exact h
  | cons r rest ih =>
    intro acc h
    simp only [List.foldl_cons]
    exact ih _ (innerFold_nodup r acc h)

theorem unionKeys_nodup (rs : List Rec) : (unionKeys rs).Nodup :=
  outerFold_nodup rs [] List.nodup_nil

theorem eraseStr_sublist (l : List String) (c : String) :
    (eraseStr l c).Sublist l := by
  induction l with
  | nil => simp [eraseStr]
  | cons x rest ih =>
    by_cases hx : x = c
    · rw [eraseStr, if_pos hx]
      exact List.sublist_cons_of_sublist x (List.Sublist.refl rest)
    · rw [eraseStr, if_neg hx]
      exact List.Sublist.cons₂ x ih

theorem eraseStr_nodup {l : List String} (h : l.Nodup) (c : String) :
    (eraseStr l c).Nodup :=
  h.sublist (eraseStr_sublist l c)

theorem hasStr_eraseStr_ne {l : List String} {k c : String} (h : k ≠ c) :
    hasStr (eraseStr l c) k = hasStr l k := by
  induction l with
  | nil => simp [eraseStr]
  | cons x rest ih =>
    by_cases hx : x = c
    · subst hx
      rw [eraseStr, if_pos rfl, hasStr, if_neg (Ne.symm h)]
    · rw [eraseStr, if_neg hx]
      by_cases hk : x = k
      · simp [hasStr, hk]
      · simp [hasStr, hk, ih]

theorem getTable_append_none {S1 : Store} (S2 : Store) {tn : String}
    (h : getTable S1 tn = none) :
    getTable (S1 ++ S2) tn = getTable S2 tn := by
  induction S1 with
  | nil => simp
  | cons p rest ih =>
    by_cases hp : p.1 = tn
    · simp [getTable, hp] at h
    · rw [getTable, if_neg hp] at h
      rw [List.cons_append, getTable, if_neg hp]
      exact ih h

theorem getTable_append_some {S1 : Store} (S2 : Store) {tn : String}
    {t : List Rec} (h : getTable S1 tn = some t) :
    getTable (S1 ++ S2) tn = some t := by
  induction S1 with
  | nil => simp [getTable] at h
  | cons p rest ih =>
    by_cases hp : p.1 = tn
    · rw [getTable, if_pos hp] at h
      rw [List.cons_append, getTable, if_pos hp]
      exact h
    · rw [getTable, if_neg hp] at h
      rw [List.cons_append, getTable, if_neg hp]
      exact ih h

theorem getTable_storeDropIfExists_self (S : Store) (tn : String) :
    getTable (storeDropIfExists S tn) tn = none := by
  unfold storeDropIfExists
  cases hg : getTable S tn with
  | none => simp [hg]
  | some t => simp [hg, getTable_dropTable_self]

theorem getTable_storeDropIfExists_ne (S : Store) {tn tn' : String}
    (h : tn' ≠ tn) :
    getTable (storeDropIfExists S tn) tn' = getTable S tn' := by
  unfold storeDropIfExists
  split
  · exact getTable_dropTable_ne S tn tn' h
  · rfl

/-- Python's attribute-setting loop over a uniquely keyed row: the
result maps a key to the row's binding when present, else to the
initial entity's binding. -/
theorem alookup_foldl_dictSet (row : Rec) (k : String) :
    ∀ init : Rec, (row.map Prod.fst).Nodup →
      alookup k (row.foldl (fun e kv => dictSet e kv.1 kv.2) init) =
        match alookup k row with
        | some v => some v
        | none => alookup k init := by
  induction row with
  | nil => intro init _; rfl
  | cons kv rest ih =>
    intro init hnd
    rw [List.map_cons, List.nodup_cons] at hnd
    simp only [List.foldl_cons]
    rw [ih _ hnd.2]
    by_cases hk : kv.1 = k
    · subst hk
      have hrest : alookup kv.1 rest = none := by
        cases hr : alookup kv.1 rest with
        | none => rfl
        | some v =>
          exfalso
          apply hnd.1
          clear ih hnd
          induction rest with
          | nil => simp [alookup] at hr
          | cons kv2 rest2 ih2 =>
            rw [alookup] at hr
            by_cases h2 : kv2.1 = kv.1
            · simp [h2]
            · rw [if_neg h2] at hr
              simp [ih2 hr]
      rw [alookup, if_pos rfl, hrest, alookup_dictSet_self]
    · rw [alookup, if_neg hk]
      cases hr : alookup k rest with
      | some v => rfl
      | none => rw [alookup_dictSet_ne _ _ _ _ fun c => hk c.symm]

theorem alookup_builtEnt {row : Rec} (hnd : (row.map Prod.fst).Nodup)
    (k : String) :
    alookup k (builtEnt row) =
      match alookup k row with
      | some v => some v
      | none => alookup k
          [("PartitionKey", (alookup "PartitionKey" row).getD Val.nan),
           ("RowKey", (alookup "RowKey" row).getD Val.nan)] := by
  unfold builtEnt buildEnt
  exact alookup_foldl_dictSet row k _ hnd

theorem entKey?_builtEnt {row : Rec} (hnd : (row.map Prod.fst).Nodup)
    (hOK : entOK row) : entKey? (builtEnt row) = entKey? row := by
  obtain ⟨p, q, hp, hq, -⟩ := entOK_elim hOK
  unfold entKey?
  rw [alookup_builtEnt hnd "PartitionKey", alookup_builtEnt hnd "RowKey", hp, hq]

theorem record_map_fst (cols : List String) (f : String → Val) :
    ((cols.map fun c => (c, f c)).map Prod.fst) = cols := by
  induction cols with
  | nil => rfl
  | cons c rest ih => simp [ih]

theorem entOK_record {cols : List String} (r : Rec)
    (hp : hasStr cols "PartitionKey" = true)
    (hq : hasStr cols "RowKey" = true) :
    entOK (cols.map fun c => (c, (alookup c r).getD Val.nan)) := by
  constructor <;> rw [alookup_keyedMap] <;> simp [hp, hq]

theorem entKey?_record {cols : List String} {r : Rec}
    (hp : hasStr cols "PartitionKey" = true)
    (hq : hasStr cols "RowKey" = true) (hOK : entOK r) :
    entKey? (cols.map fun c => (c, (alookup c r).getD Val.nan)) = entKey? r := by
  obtain ⟨p, q, hp', hq', -⟩ := entOK_elim hOK
  unfold entKey?
  rw [alookup_keyedMap, alookup_keyedMap, if_pos hp, if_pos hq, hp', hq']
  simp

/-- On a table whose keys are disjoint from the (uniquely keyed,
well-formed) rows to insert, the one-by-one write loop succeeds,
appending the built entities in order and emitting one insert event per
row. -/
theorem goWriteOne_ok (tn : String) (rows : List Rec) :
    ∀ (t : List Rec) (s : St),
      getTable s.store tn = some t →
      (∀ r ∈ rows, entOK r) →
      (∀ r ∈ rows, (r.map Prod.fst).Nodup) →
      ((t.map entKey?) ++ (rows.map entKey?)).Nodup →
      ∃ s', goWriteOne tn rows s = .ok () s' ∧
        s'.store = setTable s.store tn (t ++ rows.map builtEnt) ∧
        s'.events = s.events ++ rows.map fun r => Ev.insertOne tn (builtEnt r) := by
  induction rows with
  | nil =>
    intro t s hget hOK hnd hND
    refine ⟨s, rfl, ?_, by simp⟩
    simp [setTable_self s.store tn t hget]
  | cons r rest ih =>
    intro t s hget hOK hnd hND
    have hOKr := hOK r (List.mem_cons_self _ _)
    obtain ⟨p, q, hp, hq, hkey⟩ := entOK_elim hOKr
    have hndr := hnd r (List.mem_cons_self _ _)
    have hkeyB : entKey? (builtEnt r) = some (p, q) := by
      rw [entKey?_builtEnt hndr hOKr, hkey]
    have hfresh : (t.any fun r2 => decide (entKey? r2 = some (p, q))) = false := by
      rw [List.any_eq_false]
      intro r2 hr2
      simp only [decide_eq_true_eq]
      intro hc
      rw [List.nodup_append] at hND
      obtain ⟨-, -, hdisj⟩ := hND
      refine hdisj (a := some (p, q)) (hc ▸ List.mem_map_of_mem _ hr2) ?_
      rw [List.map_cons, ← hkey]
      exact List.mem_cons_self _ _
    have hins : svcInsertEntity tn (builtEnt r) s = .ok ()
        ⟨setTable s.store tn (t ++ [builtEnt r]),
          s.events ++ [.insertOne tn (builtEnt r)]⟩ := by
      unfold svcInsertEntity insOne
      simp only [hget, hkeyB, hfresh]
      rfl
    rw [goWriteOne_cons_ok tn rest s (mkEntity_ok hp hq), hins, Res.bind_ok]
    obtain ⟨s', hrun, hstore, hev⟩ := ih (t ++ [builtEnt r])
      ⟨setTable s.store tn (t ++ [builtEnt r]),
        s.events ++ [.insertOne tn (builtEnt r)]⟩
      (by simp [getTable_setTable_self])
      (fun r2 hr2 => hOK r2 (List.mem_cons_of_mem _ hr2))
      (fun r2 hr2 => hnd r2 (List.mem_cons_of_mem _ hr2))
      (by simpa [hkeyB, hkey] using hND)
    refine ⟨s', hrun, ?_, ?_⟩
    · rw [hstore, setTable_setTable]
      simp
    · rw [hev]
      simp

theorem delete_table_if_exists_run (tn : String) (s : St) :
    delete_table_if_exists tn s = .ok ()
      ⟨storeDropIfExists s.store tn,
        s.events ++ if (getTable s.store tn).isSome then [.deleteTable tn] else []⟩ := by
  unfold delete_table_if_exists svcExists svcDeleteTable storeDropIfExists
  cases hg : getTable s.store tn with
  | none => simp [hg]
  | some t => simp [hg]

theorem create_table_run (tn : String) (s : St) :
    create_table tn s = .ok ()
      ⟨storeCreate s.store tn,
        s.events ++ if (getTable s.store tn).isSome then [] else [.createTable tn]⟩ := by
  unfold create_table table_exists svcExists svcCreateTable storeCreate
  cases hg : getTable s.store tn with
  | none => simp [hg]
  | some t => simp [hg]

theorem query_entities_df_run {tn : String} {s : St} {es : List Rec}
    (hget : getTable s.store tn = some es) :
    query_entities_df tn s =
      .ok (dfOfRecords es) ⟨s.store, s.events ++ [.scan tn]⟩ := by
  unfold query_entities_df svcQueryEntities
  simp [hget]

/-- Witness for C7: deleting all rows of a one-entity table empties it;
deleting on an empty table succeeds with only a scan. -/
theorem C7_delete_all_rows_batch_exhaustive_witness :
    (getTable [("t", [[("PartitionKey", Val.str "a"), ("RowKey", Val.str "r")]])]
        "t" = some [[("PartitionKey", .str "a"), ("RowKey", .str "r")]] ∧
      (∀ r ∈ ([[("PartitionKey", Val.str "a"), ("RowKey", Val.str "r")]] :
        List Rec), entOK r) ∧
      (([[("PartitionKey", Val.str "a"), ("RowKey", Val.str "r")]] :
        List Rec).map entKey?).Nodup) ∧
    ((∃ s', delete_all_rows_batch "t"
        ⟨[("t", [[("PartitionKey", .str "a"), ("RowKey", .str "r")]])], []⟩ =
          .ok () s' ∧
        svcQueryEntities "t" s' = .ok [] ⟨s'.store, s'.events ++ [.scan "t"]⟩) ∧
      (([[("PartitionKey", Val.str "a"), ("RowKey", Val.str "r")]] :
          List Rec) = [] →
        delete_all_rows_batch "t"
          ⟨[("t", [[("PartitionKey", .str "a"), ("RowKey", .str "r")]])], []⟩ =
          .ok () ⟨[("t", [[("PartitionKey", .str "a"), ("RowKey", .str "r")]])],
            [] ++ [.scan "t"]⟩)) := by
  refine ⟨⟨by decide, by decide, by decide⟩, ?_⟩
  exact C7_delete_all_rows_batch_exhaustive "t"
    ⟨[("t", [[("PartitionKey", .str "a"), ("RowKey", .str "r")]])], []⟩
    [[("PartitionKey", .str "a"), ("RowKey", .str "r")]]
    (by decide) (by decide) (by decide)


theorem ensureTable_exists {tn : String} {s : St}
    (h : (getTable s.store tn).isSome = true) : ensureTable tn s = .ok () s := by
  rcases ensureTable_ok tn s with ⟨-, heq⟩ | ⟨hnone, -⟩
  · exact heq
  · rw [hnone] at h
    cases h

theorem goWriteOne_run {tn : String} {rows t : List Rec} {s : St}
    (hget : getTable s.store tn = some t)
    (hOK : ∀ r ∈ rows, entOK r)
    (hnd : ∀ r ∈ rows, (r.map Prod.fst).Nodup)
    (hND : ((t.map entKey?) ++ (rows.map entKey?)).Nodup) :
    goWriteOne tn rows s = .ok ()
      ⟨setTable s.store tn (t ++ rows.map builtEnt),
        s.events ++ rows.map fun r => Ev.insertOne tn (builtEnt r)⟩ := by
  obtain ⟨s', hrun, hstore, hev⟩ := goWriteOne_ok tn rows t s hget hOK hnd hND
  rw [hrun]
  obtain ⟨st, ev⟩ := s'
  exact congrArg (Res.ok ()) (congrArg₂ St.mk hstore hev)

theorem rename_table_run (old_name new_name : String) (s : St) (es : List Rec)
    (hne : old_name ≠ new_name)
    (hget : getTable s.store old_name = some es)
    (hOK : ∀ r ∈ es, entOK r)
    (hTS : ∀ r ∈ es, dictHas r "Timestamp" = true)
    (hND : (es.map entKey?).Nodup) :
    (es = [] → rename_table old_name new_name s = .err (.keyError "Timestamp")
      ⟨storeCreate (storeDropIfExists s.store new_name) new_name,
        s.events ++ (if (getTable s.store new_name).isSome
          then [.deleteTable new_name] else []) ++
          [.createTable new_name, .scan old_name]⟩) ∧
    (es ≠ [] → rename_table old_name new_name s = .ok ()
      ⟨storeDropIfExists (setTable
          (storeCreate (storeDropIfExists s.store new_name) new_name)
          new_name (renameCopied es)) old_name,
        s.events ++ (if (getTable s.store new_name).isSome
          then [.deleteTable new_name] else []) ++
          [.createTable new_name, .scan old_name, .scan new_name] ++
          ((DF.mk (eraseStr (unionKeys es) "Timestamp") es).toRecords.map
            fun r => Ev.insertOne new_name (builtEnt r)) ++
          [.deleteTable old_name]⟩) := by
  have hg1 : getTable (storeDropIfExists s.store new_name) new_name = none :=
    getTable_storeDropIfExists_self _ _
  have hCreate : storeCreate (storeDropIfExists s.store new_name) new_name =
      storeDropIfExists s.store new_name ++ [(new_name, [])] := by
    unfold storeCreate
    simp [hg1]
  have hg2old : getTable (storeCreate (storeDropIfExists s.store new_name)
      new_name) old_name = some es := by
    rw [hCreate]
    apply getTable_append_some
    rw [getTable_storeDropIfExists_ne s.store hne]
    exact hget
  have hg2new : getTable (storeCreate (storeDropIfExists s.store new_name)
      new_name) new_name = some [] := by
    rw [hCreate, getTable_append_none _ hg1]
    simp [getTable]
  unfold rename_table
  rw [delete_table_if_exists_run new_name s, Res.bind_ok]
  rw [create_table_run new_name _, Res.bind_ok]
  simp only [hg1, Option.isSome_none, Bool.false_eq_true, if_false]
  rw [query_entities_df_run (by simpa using hg2old), Res.bind_ok]
  constructor
  · intro he
    subst he
    have hdrop0 : (dfOfRecords ([] : List Rec)).dropCol "Timestamp" =
        .error (.keyError "Timestamp") := rfl
    simp only [hdrop0]
    simp [List.append_assoc]
  · intro hne2
    obtain ⟨r0, rest0, hr0⟩ : ∃ r0 rest0, es = r0 :: rest0 := by
      cases hes : es with
      | nil => exact absurd hes hne2
      | cons a b => exact ⟨a, b, rfl⟩
    have hr0mem : r0 ∈ es := by
      rw [hr0]
      exact List.mem_cons_self _ _
    have hTScol : hasStr (unionKeys es) "Timestamp" = true :=
      hasStr_unionKeys ⟨r0, hr0mem, hTS r0 hr0mem⟩
    have hdrop : (dfOfRecords es).dropCol "Timestamp" =
        .ok ⟨eraseStr (unionKeys es) "Timestamp", es⟩ := by
      unfold DF.dropCol dfOfRecords
      rw [if_pos hTScol]
    simp only [hdrop]
    unfold write_df_to_azure_table
    rw [ensureTable_exists (by simpa using congrArg Option.isSome hg2new),
      Res.bind_ok]
    rw [if_pos rfl]
    rw [delete_all_rows_batch_empty (by simpa using hg2new), Res.bind_ok]
    have hcolsP : hasStr (eraseStr (unionKeys es) "Timestamp") "PartitionKey"
        = true := by
      rw [hasStr_eraseStr_ne (by decide)]
      refine hasStr_unionKeys ⟨r0, hr0mem, ?_⟩
      obtain ⟨p, q, hp, hq, -⟩ := entOK_elim (hOK r0 hr0mem)
      simp [dictHas, hp]
    have hcolsR : hasStr (eraseStr (unionKeys es) "Timestamp") "RowKey"
        = true := by
      rw [hasStr_eraseStr_ne (by decide)]
      refine hasStr_unionKeys ⟨r0, hr0mem, ?_⟩
      obtain ⟨p, q, hp, hq, -⟩ := entOK_elim (hOK r0 hr0mem)
      simp [dictHas, hq]
    have hOKrec : ∀ r ∈ (DF.mk (eraseStr (unionKeys es) "Timestamp")
        es).toRecords, entOK r := by
      intro r hr
      simp only [DF.toRecords, List.mem_map] at hr
      obtain ⟨r2, hr2, rfl⟩ := hr
      exact entOK_record r2 hcolsP hcolsR
    have hndrec : ∀ r ∈ (DF.mk (eraseStr (unionKeys es) "Timestamp")
        es).toRecords, (r.map Prod.fst).Nodup := by
      intro r hr
      simp only [DF.toRecords, List.mem_map] at hr
      obtain ⟨r2, hr2, rfl⟩ := hr
      rw [record_map_fst]
      exact eraseStr_nodup (unionKeys_nodup es) _
    have hmapK : (DF.mk (eraseStr (unionKeys es) "Timestamp")
        es).toRecords.map entKey? = es.map entKey? := by
      simp only [DF.toRecords, List.map_map]
      refine List.map_congr_left ?_
      intro r2 hr2
      exact entKey?_record hcolsP hcolsR (hOK r2 hr2)
    have hNDrec : ((([] : List Rec).map entKey?) ++
        ((DF.mk (eraseStr (unionKeys es) "Timestamp")
          es).toRecords.map entKey?)).Nodup := by
      rw [List.map_nil, List.nil_append, hmapK]
      exact hND
    rw [goWriteOne_run (by simpa using hg2new) hOKrec hndrec hNDrec,
      Res.bind_ok]
    rw [delete_table_if_exists_run old_name _]
    have hg4old : getTable (setTable (storeCreate (storeDropIfExists s.store
        new_name) new_name) new_name
        ([] ++ (DF.mk (eraseStr (unionKeys es) "Timestamp")
          es).toRecords.map builtEnt)) old_name = some es := by
      rw [getTable_setTable_ne _ _ _ _ hne]
      exact hg2old
    simp only [hg4old, Option.isSome_some, if_true]
    simp [renameCopied, List.append_assoc]


theorem getTable_recreate_self (S : Store) (tn : String) :
    getTable (storeCreate (storeDropIfExists S tn) tn) tn = some [] := by
  have hg1 : getTable (storeDropIfExists S tn) tn = none :=
    getTable_storeDropIfExists_self _ _
  unfold storeCreate
  rw [hg1]
  simp only [Option.isSome_none, Bool.false_eq_true, if_false]
  rw [getTable_append_none _ hg1]
  simp [getTable]

theorem getTable_recreate_ne (S : Store) {tn tn' : String} (h : tn' ≠ tn) :
    getTable (storeCreate (storeDropIfExists S tn) tn) tn' = getTable S tn' := by
  have hg1 : getTable (storeDropIfExists S tn) tn = none :=
    getTable_storeDropIfExists_self _ _
  have hne' : getTable (storeDropIfExists S tn) tn' = getTable S tn' :=
    getTable_storeDropIfExists_ne S h
  unfold storeCreate
  rw [hg1]
  simp only [Option.isSome_none, Bool.false_eq_true, if_false]
  cases hg : getTable (storeDropIfExists S tn) tn' with
  | some t =>
    rw [getTable_append_some _ hg, ← hne', hg]
  | none =>
    rw [getTable_append_none _ hg, ← hne', hg]
    simp [getTable, Ne.symm h]

/-- C9: on a well-formed source, rename_table applies its four store
steps in exactly the spec's order — delete the destination if it
exists, create the destination, copy the entities, delete the source —
with the matching event trace; and when the copy step fails (an empty
source) the run halts with the store exactly as produced by the first
two steps, the source still present and no further step attempted. -/
theorem C9_rename_step_order (old_name new_name : String) (s : St)
    (es : List Rec)
    (hne : old_name ≠ new_name)
    (hget : getTable s.store old_name = some es)
    (hOK : ∀ r ∈ es, entOK r)
    (hTS : ∀ r ∈ es, dictHas r "Timestamp" = true)
    (hND : (es.map entKey?).Nodup) :
    (es ≠ [] → rename_table old_name new_name s = .ok ()
      ⟨storeDropIfExists (setTable
          (storeCreate (storeDropIfExists s.store new_name) new_name)
          new_name (renameCopied es)) old_name,
        s.events ++ (if (getTable s.store new_name).isSome
          then [.deleteTable new_name] else []) ++
          [.createTable new_name, .scan old_name, .scan new_name] ++
          ((DF.mk (eraseStr (unionKeys es) "Timestamp") es).toRecords.map
            fun r => Ev.insertOne new_name (builtEnt r)) ++
          [.deleteTable old_name]⟩) ∧
    (es = [] → ∃ er, rename_table old_name new_name s = .err er
      ⟨storeCreate (storeDropIfExists s.store new_name) new_name,
        s.events ++ (if (getTable s.store new_name).isSome
          then [.deleteTable new_name] else []) ++
          [.createTable new_name, .scan old_name]⟩) := by
  obtain ⟨h1, h2⟩ := rename_table_run old_name new_name s es hne hget hOK hTS hND
  exact ⟨h2, fun he => ⟨_, h1 he⟩⟩

theorem C9_rename_step_order_witness :
    ∃ s', rename_table "A" "B" ⟨[("A", [[("PartitionKey", Val.str "p"),
        ("RowKey", Val.int 0), ("Timestamp", Val.int 0)]])], []⟩ =
      .ok () s' :=
  ⟨_, (C9_rename_step_order "A" "B"
    ⟨[("A", [[("PartitionKey", Val.str "p"), ("RowKey", Val.int 0),
      ("Timestamp", Val.int 0)]])], []⟩
    [[("PartitionKey", Val.str "p"), ("RowKey", Val.int 0),
      ("Timestamp", Val.int 0)]]
    (by decide) rfl (by decide) (by decide) (by decide)).1 (by decide)⟩

/-- C10: renaming a table whose scan yields zero entities fails with
`KeyError "Timestamp"` (dropping the absent column from the empty scan
result); the failure happens after the destination has been
deleted-if-existing and freshly created — it exists and is empty — and
before the source is deleted, so the source is still present. -/
theorem C10_rename_empty_source_fails (old_name new_name : String) (s : St)
    (hne : old_name ≠ new_name)
    (hget : getTable s.store old_name = some []) :
    ∃ s', rename_table old_name new_name s =
      .err (.keyError "Timestamp") s' ∧
      getTable s'.store new_name = some [] ∧
      getTable s'.store old_name = some [] ∧
      s'.events = s.events ++ (if (getTable s.store new_name).isSome
        then [.deleteTable new_name] else []) ++
        [.createTable new_name, .scan old_name] := by
  obtain ⟨h1, -⟩ := rename_table_run old_name new_name s [] hne hget
    (by simp) (by simp) (by simp)
  refine ⟨_, h1 rfl, ?_, ?_, rfl⟩
  · exact getTable_recreate_self _ _
  · rw [getTable_recreate_ne _ hne]
    exact hget

theorem C10_rename_empty_source_fails_witness :
    ∃ s', rename_table "A" "B" ⟨[("A", [])], []⟩ =
      .err (.keyError "Timestamp") s' ∧ getTable s'.store "A" = some [] := by
  obtain ⟨s', h1, -, h3, -⟩ := C10_rename_empty_source_fails "A" "B"
    ⟨[("A", [])], []⟩ (by decide) rfl
  exact ⟨s', h1, h3⟩

end Eazure
